import Mathlib

/-!
# Snapgen generation-engine verification

Shallow embedding of the Snapgen data-generation engine
(`src/engine/topo-sort.ts`, `src/engine/transformer.ts` (FK resolver and
database persister), `src/engine/parallel.ts`, and the OpenAI generator
module) together with proofs about the embedded functions.

JavaScript runtime values flowing through rows and id mappings are modelled
by the inductive type `Value`; objects/maps with string keys are modelled as
association lists preserving insertion order, mirroring the iteration-order
guarantees of JS `Map` and plain objects.  `Math.random()` draws are
modelled by an explicit choice function `pick : Nat -> Nat` threaded as a
counter-indexed oracle; `floor(random()*len)` becomes `pick k % len`, which
ranges over exactly the same set of indices.
-/

namespace Snapgen

/-- A JavaScript runtime value as it appears in generated rows and id
mappings: `null`, `undefined`, booleans, numbers (integer-valued), strings,
and plain objects.  Objects (used only by the composite-key branch of
`extractIds`) are encoded as a `vObjCons`/`vObjNil` chain of named fields
rather than a nested list, so that decidable equality is derivable; no
claim relies on object equality (JS compares objects by reference anyway). -/
inductive Value where
  | vNull : Value
  | vUndef : Value
  | vBool : Bool → Value
  | vNum : Int → Value
  | vStr : String → Value
  | vObjNil : Value
  | vObjCons : String → Value → Value → Value
  deriving DecidableEq, Repr

open Value

/-- Build an object value from an ordered field list. -/
def objOfFields (l : List (String × Value)) : Value :=
  l.foldr (fun p acc => vObjCons p.1 p.2 acc) vObjNil

/-- A generated row: an open field-name-to-value mapping (`GeneratedRow`). -/
abbrev Row := List (String × Value)

/-- Association-list lookup, modelling `Map.get` / property access
(first binding wins; JS objects cannot hold duplicate keys). -/
def lookupA {α : Type} (l : List (String × α)) (k : String) : Option α :=
  (l.find? (fun p => p.1 = k)).map (·.2)

/-- Association-list update, modelling `Map.set` / property assignment:
replaces the binding in place if the key is present (JS `Map.set` keeps the
original insertion position), otherwise appends. -/
def setA {α : Type} (l : List (String × α)) (k : String) (v : α) :
    List (String × α) :=
  match l with
  | [] => [(k, v)]
  | (k', v') :: t => if k' = k then (k, v) :: t else (k', v') :: setA t k v

/-- `Set.add`: append if not already present. -/
def addSet (l : List String) (x : String) : List String :=
  if x ∈ l then l else l ++ [x]

/-- Property read on a row; a missing key reads as `undefined`. -/
def rowGet (r : Row) (k : String) : Value :=
  (lookupA r k).getD vUndef

/-- Property write on a row. -/
def rowSet (r : Row) (k : String) (v : Value) : Row :=
  setA r k v

/-! ## Data model (`src/types/schema.ts`) -/

/-- `RelationInfo`: relationship metadata carried by a field.  The `type`
discriminant (one-to-one, …) is irrelevant to every embedded function and is
omitted; optional string properties are `Option String`. -/
structure RelationInfo where
  relatedTable : String
  foreignKeyField : Option String := none
  referencedField : Option String := none
  isNullable : Bool := false
  deriving DecidableEq, Repr

/-- `FieldDefinition`. -/
structure FieldDefinition where
  name : String
  type : String := "String"
  isArray : Bool := false
  isRequired : Bool := false
  isUnique : Bool := false
  isId : Bool := false
  enumName : Option String := none
  relation : Option RelationInfo := none
  deriving DecidableEq, Repr

/-- `TableDefinition` (primary-key / unique-constraint lists are unused by
the embedded engine functions and omitted). -/
structure TableDefinition where
  name : String
  fields : List FieldDefinition
  deriving DecidableEq, Repr

/-- The table-name-to-identifier-list mapping (`idMappings` /
`existingIds`): `Record<string, any[]>`. -/
abbrev IdMap := List (String × List Value)

/-- The JS truthiness test `field.relation && field.relation.foreignKeyField`:
yields the foreign-key field name when the relation exists and the name is a
non-empty string (the empty string is falsy in JS). -/
def fkOf (f : FieldDefinition) : Option String :=
  match f.relation with
  | none => none
  | some rel =>
    match rel.foreignKeyField with
    | none => none
    | some fk => if fk = "" then none else some fk

/-- The related table of a field's relation (meaningful when
`fkOf f = some _`). -/
def relTableOf (f : FieldDefinition) : String :=
  match f.relation with
  | none => ""
  | some rel => rel.relatedTable

/-! ## Placeholder pattern matching (`transformer.ts` lines 25-31)

The source tests `value.includes('{{')` and then matches the regular
expression `\{\{(\w+)[_.](\d+)\}\}` against the string.  The JS regex engine
scans start positions left to right; at a position it matches the greedy
`\w+` longest-first with backtracking, then one of `_`/`.`, then `\d+`
(greedy; since `}` is not a digit, only the maximal digit run can be
followed by `}}`, so no digit backtracking is observable), then `}}`. -/

/-- Left brace character (char code 123). -/
def lbrace : Char := Char.ofNat 123

/-- Right brace character (char code 125). -/
def rbrace : Char := Char.ofNat 125

/-- `\w` character class: ASCII letters, digits and underscore. -/
def isWordChar (c : Char) : Bool :=
  c.isAlpha || c.isDigit || c = '_'

/-- Try to finish a match: given the candidate `(\w+)` capture `w` and the
remaining characters, require `[_.]`, then a non-empty maximal digit run,
then the two closing braces.  Returns the two captures. -/
def matchTail (w : List Char) (rest : List Char) : Option (String × String) :=
  match rest with
  | [] => none
  | c :: rest2 =>
    if c = '_' ∨ c = '.' then
      let ds := rest2.takeWhile Char.isDigit
      if ds.isEmpty then none
      else
        match rest2.drop ds.length with
        | c1 :: c2 :: _ =>
          if c1 = rbrace ∧ c2 = rbrace then
            some (String.mk w, String.mk ds)
          else none
        | _ => none
    else none

/-- Backtracking over the length of the `(\w+)` capture, longest first.
`ws` is the maximal word-character run after `{{`; `rest` what follows it. -/
def tryWordLen (ws : List Char) (rest : List Char) : Nat → Option (String × String)
  | 0 => none
  | n + 1 =>
    match matchTail (ws.take (n + 1)) (ws.drop (n + 1) ++ rest) with
    | some r => some r
    | none => tryWordLen ws rest n

/-- Try to match the placeholder pattern starting exactly at the given
character list. -/
def matchPlaceholderAt (s : List Char) : Option (String × String) :=
  match s with
  | c1 :: c2 :: rest =>
    if c1 = lbrace ∧ c2 = lbrace then
      let ws := rest.takeWhile isWordChar
      tryWordLen ws (rest.drop ws.length) ws.length
    else none
  | _ => none

/-- Scan start positions left to right (`String.prototype.match` finds the
leftmost match). -/
def findPlaceholder : List Char → Option (String × String)
  | [] => none
  | c :: cs =>
    match matchPlaceholderAt (c :: cs) with
    | some r => some r
    | none => findPlaceholder cs

/-- `value.includes('{{')`. -/
def containsBraces : List Char → Bool
  | [] => false
  | [_] => false
  | c1 :: c2 :: cs => (c1 = lbrace && c2 = lbrace) || containsBraces (c2 :: cs)

/-- `parseInt(indexStr, 10)` on a non-empty digit string. -/
def parseDigits (s : String) : Nat :=
  s.data.foldl (fun a c => a * 10 + (c.toNat - '0'.toNat)) 0

/-! ## Foreign-key resolver (`transformer.ts`, `transformForeignKeys`) -/

/-- The placeholder-substitution step applied to one foreign-key value
(`transformer.ts` lines 25-38).  If the value is a string containing `{{`
and matching the placeholder pattern, and `idMappings[tableName]` holds a
defined identifier at the (1-based) index, that identifier is returned;
otherwise the value is unchanged. -/
def substValue (idM : IdMap) (v : Value) : Value :=
  match v with
  | vStr s =>
    if containsBraces s.data then
      match findPlaceholder s.data with
      | some (tableName, indexStr) =>
        let n := parseDigits indexStr
        if 1 ≤ n then
          match (lookupA idM tableName).bind (fun ids => ids.get? (n - 1)) with
          | some w => if w = vUndef then v else w
          | none => v
        else v
      | none => v
    else v
  | _ => v

/-- Processing of a single schema field inside the `transformForeignKeys`
row loop (`transformer.ts` lines 15-52).  State is the `Math.random` draw
counter paired with the row being transformed.  Note that the membership
re-check uses the *stale* value read before placeholder substitution, as the
source does. -/
def processField (pick : Nat → Nat) (idM : IdMap) (st : Nat × Row)
    (f : FieldDefinition) : Nat × Row :=
  match fkOf f with
  | none => st
  | some fk =>
    let value := rowGet st.2 fk
    if value = vNull ∨ value = vUndef then st
    else
      let row1 := rowSet st.2 fk (substValue idM value)
      match lookupA idM (relTableOf f) with
      | none => (st.1, row1)
      | some ids =>
        if 0 < ids.length then
          if ids.contains value then (st.1, row1)
          else (st.1 + 1, rowSet row1 fk (ids.getD (pick st.1 % ids.length) vUndef))
        else (st.1, row1)

/-- Fold of `processField` over the table's fields (one row of the
`rows.map` body). -/
def transformRowFields (pick : Nat → Nat) (idM : IdMap)
    (fields : List FieldDefinition) (st : Nat × Row) : Nat × Row :=
  fields.foldl (processField pick idM) st

/-- `transformForeignKeys(rows, tableSchema, idMappings)`:  maps every row
through the per-field transformation; the spread copy `{...row}` is
represented by the value-passing semantics of the embedding.  The draw
counter threads across rows because `Math.random` is a single global
stream. -/
def transformForeignKeys (pick : Nat → Nat) (rows : List Row)
    (tableSchema : TableDefinition) (idM : IdMap) : List Row :=
  (rows.foldl
    (fun (st : Nat × List Row) row =>
      let r := transformRowFields pick idM tableSchema.fields (st.1, row)
      (r.1, st.2 ++ [r.2]))
    (0, [])).2

/-- The foreign-key field names declared by a field list (every name
`transformForeignKeys` may write to). -/
def fkNames (fields : List FieldDefinition) : List String :=
  fields.filterMap fkOf

/-- Recursive presentation of the `rows.map` body of
`transformForeignKeys` (proved equal to the accumulator fold below; used to
reason about the output row by row). -/
def transformRowsAux (pick : Nat → Nat) (idM : IdMap)
    (fields : List FieldDefinition) : Nat → List Row → List Row
  | _, [] => []
  | cnt, row :: rest =>
    let r := transformRowFields pick idM fields (cnt, row)
    r.2 :: transformRowsAux pick idM fields r.1 rest

/-! ## Batched generation (OpenAI generator module) -/

/-- `GenerationResult`. -/
structure GenerationResult where
  tableName : String
  rows : List Row
  ids : List Value
  deriving DecidableEq, Repr

/-- `getOptimalBatchSize(context)`: complexity heuristic mapping the field
count of the table schema to a per-request batch size. -/
def getOptimalBatchSize (tableSchema : TableDefinition) : Nat :=
  let fieldCount := tableSchema.fields.length
  if fieldCount > 15 then 10
  else if fieldCount > 10 then 20
  else 30

/-- The batch-splitting `while (remaining > 0)` loop of
`generateWithOpenAI`, with explicit fuel (the loop strictly decreases
`remaining` whenever `batchSize > 0`, so `remaining + 1` steps suffice). -/
def splitBatchesAux (batchSize : Nat) : Nat → Nat → List Nat
  | 0, _ => []
  | _ + 1, 0 => []
  | fuel + 1, remaining + 1 =>
    let size := min (remaining + 1) batchSize
    size :: splitBatchesAux batchSize fuel (remaining + 1 - size)

/-- Split a requested row count into consecutive batches of at most
`batchSize` rows. -/
def splitBatches (count batchSize : Nat) : List Nat :=
  splitBatchesAux batchSize (count + 1) count

/-- `extractIds(rows, tableSchema)` of the OpenAI generator module: project
the identifier sequence out of generated rows. -/
def extractIds (rows : List Row) (tableSchema : TableDefinition) : List Value :=
  let idFields := tableSchema.fields.filter (·.isId)
  match idFields with
  | [] =>
    match rows with
    | [] => []
    | r0 :: _ =>
      if rowGet r0 "id" ≠ vUndef then rows.map (fun r => rowGet r "id")
      else (List.range rows.length).map (fun i => vNum (i + 1))
  | [f] => (rows.map (fun r => rowGet r f.name)).filter (· ≠ vUndef)
  | fs => rows.map (fun r => objOfFields (fs.map (fun f => (f.name, rowGet r f.name))))

/-- The success path of `generateBatch(context, count, config)` after the
model response has been parsed into a row array: an empty array throws
(`Generated 0 rows`, modelled as `none`, as are the network/parse failure
paths); otherwise the rows are truncated to `count` while the ids are
extracted from the untruncated array. -/
def generateBatchResult (tableName : String) (rows : List Row) (count : Nat)
    (tableSchema : TableDefinition) : Option GenerationResult :=
  if rows.isEmpty then none
  else some { tableName := tableName, rows := rows.take count,
              ids := extractIds rows tableSchema }

/-! ## Transactional batch persister (database half of `transformer.ts`) -/

/-- `InsertResult`.  `failed` is an `Int` because the source computes it by
JS subtraction (`rows.length - rowCount`). -/
structure InsertResult where
  tableName : String
  inserted : Nat
  failed : Int
  errors : List String
  ids : List Value
  deriving DecidableEq, Repr

/-- Outcome of one `client.query` INSERT round-trip, supplied as an oracle:
either the returned rows plus the reported `rowCount`, or a thrown database
error. -/
inductive DbResp where
  | success : List Row → Nat → DbResp
  | failure : String → DbResp
  deriving DecidableEq, Repr

/-- `key.endsWith(suffix)`: the key's characters end with the suffix's
characters (computable suffix test over the character lists). -/
def strEndsWith (k suffix : String) : Bool :=
  List.isSuffixOf suffix.data k.data

/-- `key === 'id' || key.endsWith('_id')`. -/
def isIdKey (k : String) : Bool :=
  k = "id" || strEndsWith k "_id"

/-- `insertBatch(client, tableName, rows)`:  empty input short-circuits;
otherwise the single conflict-tolerant INSERT either succeeds — `inserted`
is the reported row count, `failed` the difference, ids are harvested from
the returned rows using the first id-like key of the first returned row —
or throws, which propagates (`Except.error`) after the local result (never
seen by the caller) is filled in. -/
def insertBatchModel (tableName : String) (rows : List Row) (resp : DbResp) :
    Except String InsertResult :=
  if rows.isEmpty then
    .ok { tableName := tableName, inserted := 0, failed := 0, errors := [], ids := [] }
  else
    match resp with
    | .failure msg => .error msg
    | .success returnedRows rowCount =>
      let inserted := rowCount
      let failed : Int := (rows.length : Int) - (rowCount : Int)
      let ids : List Value :=
        match returnedRows with
        | [] => []
        | r0 :: _ =>
          match (r0.map (·.1)).find? isIdKey with
          | some idField => returnedRows.map (fun r => rowGet r idField)
          | none => []
      let errors : List String :=
        if 0 < failed then
          [toString failed ++ " rows skipped due to conflicts (likely duplicates)"]
        else []
      .ok { tableName := tableName, inserted := inserted, failed := failed,
            errors := errors, ids := ids }

/-- The `for (let i = 0; i < rows.length; i += batchSize)` chunking loop of
`insertData`, with structural fuel (each step drops at least one row when
`batchSize > 0`, so `rows.length + 1` steps suffice; a zero batch size
would loop forever in the source and is guarded degenerately here — the
only caller defaults it to 500). -/
def chunkRowsAux : Nat → List Row → Nat → List (List Row)
  | 0, _, _ => []
  | _ + 1, [], _ => []
  | _ + 1, r :: rs, 0 => [r :: rs]
  | fuel + 1, r :: rs, b + 1 =>
    (r :: rs).take (b + 1) :: chunkRowsAux fuel ((r :: rs).drop (b + 1)) (b + 1)

/-- Chunk the rows of one `insertData` call into batches of `batchSize`. -/
def chunkRows (rows : List Row) (batchSize : Nat) : List (List Row) :=
  chunkRowsAux (rows.length + 1) rows batchSize

/-- Final observable outcome of one `insertData` call: the accumulated
result, whether `COMMIT` ran, whether `ROLLBACK` ran, and the exception
propagated to the caller (if any). -/
structure InsertDataFinal where
  result : InsertResult
  committed : Bool
  rolledBack : Bool
  thrown : Option String
  deriving DecidableEq, Repr

/-- The per-batch accumulation loop of `insertData`: a successful batch
adds its counts, errors and ids to the table result; a *thrown* batch error
is caught in the loop, adds the whole batch size to `failed` and records a
`Batch failed:` message, and the loop continues with the next batch
(`transformer.ts` lines 200-212). -/
def insertDataLoop (tableName : String) (db : Nat → DbResp) :
    List (List Row) → Nat → InsertResult → InsertResult
  | [], _, acc => acc
  | batch :: rest, i, acc =>
    match insertBatchModel tableName batch (db i) with
    | .ok r =>
      insertDataLoop tableName db rest (i + 1)
        { acc with inserted := acc.inserted + r.inserted,
                   failed := acc.failed + r.failed,
                   errors := acc.errors ++ r.errors,
                   ids := acc.ids ++ r.ids }
    | .error msg =>
      insertDataLoop tableName db rest (i + 1)
        { acc with failed := acc.failed + batch.length,
                   errors := acc.errors ++ ["Batch failed: " ++ msg] }

/-- `insertData(tableName, rows, connectionString, batchSize)`:  empty input
returns the empty result without touching the database; otherwise the
batches run inside one transaction.  `db i` is the database's response to
the `i`-th batch; `beginFails` / `commitFails` model a thrown `BEGIN` /
`COMMIT`.  Any error escaping the batch loop (which, per `insertDataLoop`,
batch errors do *not*) or the BEGIN/COMMIT statements triggers `ROLLBACK`
and re-throws. -/
def insertData (tableName : String) (rows : List Row) (batchSize : Nat)
    (db : Nat → DbResp) (beginFails commitFails : Option String) :
    InsertDataFinal :=
  let result0 : InsertResult :=
    { tableName := tableName, inserted := 0, failed := 0, errors := [], ids := [] }
  if rows.isEmpty then
    { result := result0, committed := false, rolledBack := false, thrown := none }
  else
    match beginFails with
    | some msg =>
      { result := result0, committed := false, rolledBack := true, thrown := some msg }
    | none =>
      let result := insertDataLoop tableName db (chunkRows rows batchSize) 0 result0
      match commitFails with
      | some msg =>
        { result := result, committed := false, rolledBack := true, thrown := some msg }
      | none =>
        { result := result, committed := true, rolledBack := false, thrown := none }

/-! ## Dependency graph and topological sort (`src/engine/topo-sort.ts`) -/

/-- `DependencyNode`. -/
structure DependencyNode where
  table : String
  dependencies : List String
  dependents : List String
  deriving DecidableEq, Repr

/-- `TopologicalOrder`. -/
structure TopologicalOrder where
  order : List String
  cycles : List (List String)
  deriving DecidableEq, Repr

/-- The graph: a `Map<string, DependencyNode>` in insertion order. -/
abbrev Graph := List (String × DependencyNode)

/-- `node.dependencies.push(relatedTable)` guarded by the `includes`
dedup check (`topo-sort.ts` lines 38-40); a missing node (the non-null
assertion on `graph.get`) leaves the graph unchanged — phase 1 guarantees
presence. -/
def addDep (tableName relatedTable : String) (g : Graph) : Graph :=
  match lookupA g tableName with
  | none => g
  | some node =>
    if relatedTable ∈ node.dependencies then g
    else setA g tableName
      { node with dependencies := node.dependencies ++ [relatedTable] }

/-- `relatedNode.dependents.push(table.name)` guarded by the existence of
the related node and the `includes` dedup check (lines 43-46). -/
def addDependent (tableName relatedTable : String) (g : Graph) : Graph :=
  match lookupA g relatedTable with
  | none => g
  | some relatedNode =>
    if tableName ∈ relatedNode.dependents then g
    else setA g relatedTable
      { relatedNode with dependents := relatedNode.dependents ++ [tableName] }

/-- One foreign-key field of one table contributing its edge to the graph
(`topo-sort.ts` lines 28-48): skip fields without a truthy
`relation.foreignKeyField`, skip self references, then record the
dependency and the reverse dependent edge. -/
def addEdge (tableName : String) (g : Graph) (f : FieldDefinition) : Graph :=
  match fkOf f with
  | none => g
  | some _ =>
    let relatedTable := relTableOf f
    if relatedTable = tableName then g
    else addDependent tableName relatedTable (addDep tableName relatedTable g)

/-- `buildDependencyGraph(tables)`: initialise a node per table, then add
the foreign-key edges. -/
def buildDependencyGraph (tables : List TableDefinition) : Graph :=
  let g0 : Graph := tables.foldl
    (fun g t => setA g t.name { table := t.name, dependencies := [], dependents := [] }) []
  tables.foldl (fun g t => t.fields.foldl (addEdge t.name) g) g0

/-- `graph.get(k)?.dependencies ?? []` convenience accessor. -/
def depsOf (g : Graph) (k : String) : List String :=
  ((lookupA g k).map (·.dependencies)).getD []

/-- `graph.get(k)?.dependents ?? []` convenience accessor. -/
def dependentsOf (g : Graph) (k : String) : List String :=
  ((lookupA g k).map (·.dependents)).getD []

/-- The in-degree of a node under the current in-degree map
(`inDegree.get(x) || 0`: a missing entry reads as 0, and `0 || 0 = 0`). -/
def degOf (deg : List (String × Int)) (k : String) : Int :=
  (lookupA deg k).getD 0

/-- The body of the `dependents.forEach` decrement loop of Kahn's
algorithm: decrement each dependent's in-degree, enqueueing those that hit
exactly zero. -/
def decrementStep (dq : List (String × Int) × List String) (d : String) :
    List (String × Int) × List String :=
  let newDegree := degOf dq.1 d - 1
  (setA dq.1 d newDegree, if newDegree = 0 then dq.2 ++ [d] else dq.2)

/-- The `while (queue.length > 0)` loop of Kahn's algorithm, with fuel.
Each loop iteration dequeues (`shift`) one table, appends it to the order
and decrements its dependents.  Every key is enqueued at most once, so
`graph.length + 1` fuel is never exhausted (proved below for well-formed
graphs). -/
def kahnLoop (adj : List (String × List String)) :
    Nat → List String → List String → List (String × Int) →
    List String × List (String × Int)
  | 0, _, order, deg => (order, deg)
  | _ + 1, [], order, deg => (order, deg)
  | fuel + 1, current :: rest, order, deg =>
    let dependents := (lookupA adj current).getD []
    let dq := dependents.foldl decrementStep (deg, rest)
    kahnLoop adj fuel dq.2 (order ++ [current]) dq.1

/-- The key list of the graph, in map insertion order. -/
def graphKeys (g : Graph) : List String :=
  g.map Prod.fst

/-- The `inDegree` map built by the `graph.forEach` at the top of
`topologicalSort`. -/
def inDegOf (g : Graph) : List (String × Int) :=
  g.foldl (fun m p => setA m p.1 (p.2.dependencies.length : Int)) []

/-- The `adjList` copy built alongside it. -/
def adjOf (g : Graph) : List (String × List String) :=
  g.foldl (fun m p => setA m p.1 p.2.dependents) []

/-- The seed queue: keys of in-degree `0`, in map order. -/
def queue0Of (g : Graph) : List String :=
  (inDegOf g).foldl (fun q p => if p.2 = 0 then q ++ [p.1] else q) []

/-- The Kahn phase of `topologicalSort`: the emitted order together with
the final in-degree map. -/
def kahnParts (g : Graph) : List String × List (String × Int) :=
  kahnLoop (adjOf g) (g.length + 1) (queue0Of g) [] (inDegOf g)

/-- The order emitted by the Kahn phase (before residual nodes are
appended). -/
def kahnOrder (g : Graph) : List String :=
  (kahnParts g).1

/-- The residual ("remaining") nodes: keys whose final in-degree is still
positive, in map insertion order. -/
def residualOf (g : Graph) : List String :=
  (kahnParts g).2.foldl (fun r p => if 0 < p.2 then r ++ [p.1] else r) []

/-- `graph.get(a)?.dependencies.length || 0`: the comparator key used to
sort residual nodes. -/
def staticDepCount (g : Graph) (a : String) : Nat :=
  ((lookupA g a).map (·.dependencies.length)).getD 0

/-- Stable insertion of one element into a list already sorted ascending by
the key: the element goes after every element whose key is `≤` its own, so
elements comparing equal keep their original relative order — exactly the
(ES2019-mandated stable) behaviour of `Array.prototype.sort` with the
`aDeps - bDeps` comparator. -/
def insertByKey (key : String → Nat) (x : String) : List String → List String
  | [] => [x]
  | y :: ys => if key y ≤ key x then y :: insertByKey key x ys else x :: y :: ys

/-- Stable sort ascending by key (left-to-right insertion). -/
def sortByKey (key : String → Nat) (l : List String) : List String :=
  l.foldl (fun acc x => insertByKey key x acc) []

/- The depth-first search of `detectCycle`, lines 135-157: mutual
recursion between entering a node (mark visited, mark on the recursion
stack) and iterating its dependencies.  Returns whether a cycle was found,
the updated visited set, and the extracted cycle path.  The recursion-stack
set is passed by value: its net mutation across a `false` return is zero in
the source, and it is unused after a `true` return. -/
mutual

/-- Enter one node of the cycle-detection DFS. -/
def dfsNode (g : Graph) (fuel : Nat) (node : String)
    (visited recStack : List String) : Bool × List String × List String :=
  match fuel with
  | 0 => (false, visited, [])
  | fuel + 1 =>
    dfsDeps g fuel (depsOf g node) node (addSet visited node) (addSet recStack node)
termination_by (fuel, 0)

/-- Iterate the dependency list of one node of the cycle-detection DFS. -/
def dfsDeps (g : Graph) (fuel : Nat) (deps : List String) (node : String)
    (visited recStack : List String) : Bool × List String × List String :=
  match deps with
  | [] => (false, visited, [])
  | dep :: rest =>
    if dep ∉ visited then
      match dfsNode g fuel dep visited recStack with
      | (true, v, cycle) => (true, v, node :: cycle)
      | (false, v, _) => dfsDeps g fuel rest node v recStack
    else if dep ∈ recStack then (true, visited, [node, dep])
    else dfsDeps g fuel rest node visited recStack
termination_by (fuel, deps.length + 1)

end

/-- Fuel bound for the DFS: every entered node is freshly marked visited,
and visited names come from the key set or some dependency list. -/
def dfsFuel (g : Graph) : Nat :=
  g.length + (g.map (fun p => p.2.dependencies.length)).sum + 1

/-- The `for (const startNode of startNodes)` loop of `detectCycle`. -/
def detectCycleLoop (g : Graph) : List String → List String → List String
  | [], _ => []
  | s :: rest, visited =>
    if s ∉ visited then
      match dfsNode g (dfsFuel g) s visited [] with
      | (true, _, cycle) => cycle
      | (false, v, _) => detectCycleLoop g rest v
    else detectCycleLoop g rest visited

/-- `detectCycle(graph, startNodes)`. -/
def detectCycle (g : Graph) (startNodes : List String) : List String :=
  detectCycleLoop g startNodes []

/-- `topologicalSort(graph)`:  Kahn phase, then the residual nodes (those
with positive final in-degree, in map insertion order) are reported as a
cycle and appended to the order sorted ascending by their *original*
dependency count. -/
def topologicalSort (g : Graph) : TopologicalOrder :=
  { order := kahnOrder g ++ sortByKey (staticDepCount g) (residualOf g),
    cycles := if (residualOf g).isEmpty then [] else [detectCycle g (residualOf g)] }

/-- The number of decrements the node `k` has received after the nodes of
`order` have been processed (each processed node decrements each of its
dependents exactly once). -/
def countDecr (g : Graph) (order : List String) (k : String) : Int :=
  ((order.filter (fun c => k ∈ dependentsOf g c)).length : Int)

/-- Well-formedness facts that `buildDependencyGraph` guarantees (proved
below) and on which the Kahn-loop invariant rests: duplicate-free keys,
duplicate-free dependent lists contained in the key set, and the
edge-mirror property relating `dependents` and `dependencies`. -/
structure GraphWF (g : Graph) : Prop where
  keysNodup : (graphKeys g).Nodup
  dependentsNodup : ∀ k, (dependentsOf g k).Nodup
  dependentsSub : ∀ k, ∀ d ∈ dependentsOf g k, d ∈ graphKeys g
  mirror : ∀ c ∈ graphKeys g, ∀ k, k ∈ dependentsOf g c ↔ c ∈ depsOf g k

/-- The invariant of the Kahn `while` loop.  `order` is the emitted
prefix, `queue` the pending FIFO queue, `deg` the current in-degree map:
emitted and pending nodes are distinct keys of the graph with non-positive
current degree and exactly the keys with non-positive degree; every key's
degree is its dependency count minus its received decrements; the in-degree
map's key list never changes; every pending node's dependencies are already
emitted; and every emitted node's dependencies precede it. -/
def KahnInv (g : Graph) (order queue : List String)
    (deg : List (String × Int)) : Prop :=
  (order ++ queue).Nodup ∧
  (∀ k ∈ order ++ queue, k ∈ graphKeys g) ∧
  (∀ k ∈ order ++ queue, degOf deg k ≤ 0) ∧
  (∀ k ∈ graphKeys g, degOf deg k ≤ 0 → k ∈ order ++ queue) ∧
  (∀ k ∈ graphKeys g, degOf deg k = ((depsOf g k).length : Int) - countDecr g order k) ∧
  (deg.map Prod.fst = graphKeys g) ∧
  (∀ k ∈ queue, depsOf g k ⊆ order) ∧
  (∀ n k, order[n]? = some k → depsOf g k ⊆ order.take n)

/-! ## Parallel leveling (`src/engine/parallel.ts`) -/

/-- One candidate-level scan of `groupTablesByLevel`: the unprocessed
tables (in input order) whose graph node exists and whose dependencies are
all processed. -/
def currentLevelOf (g : Graph) (tables : List TableDefinition)
    (processed : List String) : List String :=
  tables.filterMap (fun t =>
    if t.name ∈ processed then none
    else
      match lookupA g t.name with
      | none => none
      | some node =>
        if node.dependencies.all (· ∈ processed) then some t.name else none)

/-- The `while (processed.size < tables.length)` loop of
`groupTablesByLevel`, with fuel (every continuing iteration strictly grows
the processed set, which lives inside the duplicate-free table-name set, so
`tables.length + 1` fuel is never exhausted for duplicate-free inputs). -/
def levelLoop (g : Graph) (tables : List TableDefinition) :
    Nat → List String → List (List String) → List (List String)
  | 0, _, levels => levels
  | fuel + 1, processed, levels =>
    if processed.length < tables.length then
      let currentLevel := currentLevelOf g tables processed
      if currentLevel.isEmpty then
        let remaining := (tables.filter (fun t => t.name ∉ processed)).map (·.name)
        if remaining.isEmpty then levels else levels ++ [remaining]
      else
        levelLoop g tables fuel (currentLevel.foldl addSet processed)
          (levels ++ [currentLevel])
    else levels

/-- `groupTablesByLevel(tables)`. -/
def groupTablesByLevel (tables : List TableDefinition) : List (List String) :=
  levelLoop (buildDependencyGraph tables) tables (tables.length + 1) [] []

/-! ## Concrete example inputs used by witnesses and counterexamples -/

/-- A foreign-key field named `n` referencing table `rel` (the FK column is
the field itself, as the Prisma parser produces). -/
def fkField (n : String) (rel : String) : FieldDefinition :=
  { name := n, relation := some { relatedTable := rel, foreignKeyField := some n } }

/-- A `Post` table whose `userId` column references `User`. -/
def postTable : TableDefinition :=
  { name := "Post", fields := [fkField "userId" "User"] }

/-- The id pool `[10, 20, 30]` of the spec's resolution examples. -/
def idsUser : List Value := [vNum 10, vNum 20, vNum 30]

/-- The placeholder string of the spec's resolution example,
`"{{User_2}}"` (braces written by char code). -/
def phUser2 : String := String.mk [lbrace, lbrace, 'U', 's', 'e', 'r', '_', '2', rbrace, rbrace]

/-- A placeholder string `"{{Team_1}}"` targeting a different table. -/
def phTeam1 : String := String.mk [lbrace, lbrace, 'T', 'e', 'a', 'm', '_', '1', rbrace, rbrace]

/-- Two-table chain: `A` holds a foreign key into `B`. -/
def tableA : TableDefinition := { name := "A", fields := [fkField "bId" "B"] }

/-- The referenced table of the two-table chain. -/
def tableB : TableDefinition := { name := "B", fields := [{ name := "id", isId := true }] }

/-- Residual-sort example: `X` depends on two free tables and on one cycle
member, `Y` on two cycle members, `C1`/`C2` form the cycle, `P1`/`P2` are
free. -/
def cycTables : List TableDefinition :=
  [ { name := "X", fields := [fkField "p1" "P1", fkField "p2" "P2", fkField "c1" "C1"] },
    { name := "Y", fields := [fkField "c1" "C1", fkField "c2" "C2"] },
    { name := "C1", fields := [fkField "c2" "C2"] },
    { name := "C2", fields := [fkField "c1" "C1"] },
    { name := "P1", fields := [] },
    { name := "P2", fields := [] } ]

/-- A schema with 16 scalar fields (complex-table witness for the batch
size heuristic). -/
def wideTable : TableDefinition :=
  { name := "Wide",
    fields := (List.range 16).map (fun i => { name := "f" ++ toString i }) }

/-- A single concrete row used by persister examples. -/
def exRow : Row := [("email", vStr "a@b.c")]

/-- Id mapping in which the `User` pool contains the literal placeholder
string `"{{Team_1}}"` while the `Team` pool holds `99`. -/
def idMapTrick : IdMap := [("User", [vStr phTeam1]), ("Team", [vNum 99])]

/-! # Theorems

## Association-list and row basics -/

theorem lookupA_cons {α : Type} (p : String × α) (t : List (String × α)) (k : String) :
    lookupA (p :: t) k = if p.1 = k then some p.2 else lookupA t k := by
  by_cases h : p.1 = k
  · rw [lookupA, List.find?_cons_of_pos _ (by simp [h]), if_pos h]
    rfl
  · rw [lookupA, List.find?_cons_of_neg _ (by simp [h]), if_neg h]
    rfl

theorem setA_cons {α : Type} (p : String × α) (t : List (String × α)) (k : String) (v : α) :
    setA (p :: t) k v = if p.1 = k then (k, v) :: t else p :: setA t k v := by
  cases p
  rfl

theorem lookupA_setA_self {α : Type} (l : List (String × α)) (k : String) (v : α) :
    lookupA (setA l k v) k = some v := by
  induction l with
  | nil => simp [setA, lookupA_cons]
  | cons p t ih =>
    rw [setA_cons]
    by_cases h : p.1 = k
    · simp [h, lookupA_cons]
    · simpa [h, lookupA_cons] using ih

theorem lookupA_setA_ne {α : Type} (l : List (String × α)) (k : String) (v : α)
    (k' : String) (h : k' ≠ k) : lookupA (setA l k v) k' = lookupA l k' := by
  induction l with
  | nil =>
    show lookupA [(k, v)] k' = lookupA [] k'
    rw [lookupA_cons, if_neg (fun hh => h hh.symm)]
  | cons p t ih =>
    rw [setA_cons]
    by_cases hp : p.1 = k
    · rw [if_pos hp, lookupA_cons, lookupA_cons, hp,
        if_neg (fun hh => h hh.symm), if_neg (fun hh => h hh.symm)]
    · rw [if_neg hp, lookupA_cons, lookupA_cons, ih]

theorem keys_setA {α : Type} (l : List (String × α)) (k : String) (v : α) :
    (setA l k v).map Prod.fst =
      if k ∈ l.map Prod.fst then l.map Prod.fst else l.map Prod.fst ++ [k] := by
  induction l with
  | nil => simp [setA]
  | cons p t ih =>
    rw [setA_cons]
    by_cases hp : p.1 = k
    · simp [hp]
    · have hne : ¬ k = p.1 := fun hh => hp hh.symm
      simp only [hp, if_false, List.map_cons, List.mem_cons, hne, false_or, ih]
      by_cases hk : k ∈ t.map Prod.fst <;> simp [hk]

theorem lookupA_eq_none {α : Type} (l : List (String × α)) (k : String)
    (h : k ∉ l.map Prod.fst) : lookupA l k = none := by
  induction l with
  | nil => simp [lookupA]
  | cons p t ih =>
    simp only [List.map_cons, List.mem_cons] at h
    push_neg at h
    rw [lookupA_cons, if_neg (fun hh => h.1 hh.symm)]
    exact ih h.2

theorem lookupA_isSome {α : Type} (l : List (String × α)) (k : String)
    (h : k ∈ l.map Prod.fst) : ∃ v, lookupA l k = some v := by
  induction l with
  | nil => simp at h
  | cons p t ih =>
    rw [lookupA_cons]
    by_cases hp : p.1 = k
    · exact ⟨p.2, by simp [hp]⟩
    · simp only [List.map_cons, List.mem_cons] at h
      rcases h with h | h
      · exact absurd h.symm hp
      · simpa [hp] using ih h

theorem rowGet_rowSet_self (r : Row) (k : String) (v : Value) :
    rowGet (rowSet r k v) k = v := by
  simp [rowGet, rowSet, lookupA_setA_self]

theorem rowGet_rowSet_ne (r : Row) (k : String) (v : Value) (k' : String)
    (h : k' ≠ k) : rowGet (rowSet r k v) k' = rowGet r k' := by
  simp [rowGet, rowSet, lookupA_setA_ne _ _ _ _ h]

theorem getD_mem_of_lt {α : Type} (l : List α) (i : Nat) (d : α)
    (h : i < l.length) : l.getD i d ∈ l := by
  rw [List.getD_eq_getElem?_getD, List.getElem?_eq_getElem h]
  exact List.getElem_mem h

/-! ## Foreign-key resolver: frame and membership lemmas -/

theorem processField_skip (pick : Nat → Nat) (idM : IdMap) (st : Nat × Row)
    (f : FieldDefinition) (h : fkOf f = none) :
    processField pick idM st f = st := by
  simp [processField, h]

theorem processField_null (pick : Nat → Nat) (idM : IdMap) (st : Nat × Row)
    (f : FieldDefinition) (fk : String) (h : fkOf f = some fk)
    (hv : rowGet st.2 fk = vNull ∨ rowGet st.2 fk = vUndef) :
    processField pick idM st f = st := by
  simp [processField, h, hv]

theorem processField_frame (pick : Nat → Nat) (idM : IdMap)
    (st : Nat × Row) (f : FieldDefinition) (name : String)
    (h : ∀ fk, fkOf f = some fk → name ≠ fk) :
    rowGet (processField pick idM st f).2 name = rowGet st.2 name := by
  rcases hf : fkOf f with _ | fk
  · rw [processField_skip pick idM st f hf]
  · have hne : name ≠ fk := h fk hf
    by_cases hnull : rowGet st.2 fk = vNull ∨ rowGet st.2 fk = vUndef
    · rw [processField_null pick idM st f fk hf hnull]
    · rcases hm : lookupA idM (relTableOf f) with _ | ids
      · simp only [processField, hf, if_neg hnull, hm]
        exact rowGet_rowSet_ne _ _ _ _ hne
      · simp only [processField, hf, if_neg hnull, hm]
        by_cases h1 : 0 < ids.length
        · by_cases h2 : rowGet st.2 fk ∈ ids
          · rw [if_pos h1, if_pos (by simp [h2])]
            exact rowGet_rowSet_ne _ _ _ _ hne
          · rw [if_pos h1, if_neg (by simp [h2])]
            show rowGet (rowSet (rowSet st.2 fk _) fk _) name = _
            rw [rowGet_rowSet_ne _ _ _ _ hne, rowGet_rowSet_ne _ _ _ _ hne]
        · rw [if_neg h1]
          exact rowGet_rowSet_ne _ _ _ _ hne

theorem processField_mem (pick : Nat → Nat) (idM : IdMap) (st : Nat × Row)
    (f : FieldDefinition) (fk : String) (ids : List Value)
    (hf : fkOf f = some fk)
    (hm : lookupA idM (relTableOf f) = some ids)
    (hnil : ids ≠ [])
    (hvn : rowGet st.2 fk ≠ vNull) (hvu : rowGet st.2 fk ≠ vUndef)
    (hsub : rowGet st.2 fk ∈ ids → substValue idM (rowGet st.2 fk) ∈ ids) :
    rowGet (processField pick idM st f).2 fk ∈ ids := by
  have hnull : ¬(rowGet st.2 fk = vNull ∨ rowGet st.2 fk = vUndef) := by
    rintro (h | h) <;> [exact hvn h; exact hvu h]
  have h1 : 0 < ids.length := List.length_pos.mpr hnil
  simp only [processField, hf, if_neg hnull, hm]
  by_cases h2 : rowGet st.2 fk ∈ ids
  · rw [if_pos h1, if_pos (by simp [h2])]
    show rowGet (rowSet st.2 fk _) fk ∈ ids
    rw [rowGet_rowSet_self]
    exact hsub h2
  · rw [if_pos h1, if_neg (by simp [h2])]
    show rowGet (rowSet (rowSet st.2 fk _) fk _) fk ∈ ids
    rw [rowGet_rowSet_self]
    exact getD_mem_of_lt _ _ _ (Nat.mod_lt _ h1)

theorem transformRowFields_frame (pick : Nat → Nat) (idM : IdMap)
    (fields : List FieldDefinition) (st : Nat × Row) (name : String)
    (h : name ∉ fkNames fields) :
    rowGet (transformRowFields pick idM fields st).2 name = rowGet st.2 name := by
  induction fields generalizing st with
  | nil => rfl
  | cons f rest ih =>
    simp only [fkNames, List.filterMap_cons] at h
    have hf : ∀ fk, fkOf f = some fk → name ≠ fk := by
      intro fk hfk
      rw [hfk] at h
      intro hh
      exact h (by simp [hh])
    have hrest : name ∉ fkNames rest := by
      intro hh
      rcases hfo : fkOf f with _ | fk <;> rw [hfo] at h <;>
        simp only [fkNames] at hh <;> simp [hh] at h
    calc rowGet (transformRowFields pick idM (f :: rest) st).2 name
        = rowGet (transformRowFields pick idM rest (processField pick idM st f)).2 name := rfl
      _ = rowGet (processField pick idM st f).2 name := ih _ hrest
      _ = rowGet st.2 name := processField_frame pick idM st f name hf

theorem transformForeignKeys_eq_aux (pick : Nat → Nat) (rows : List Row)
    (tableSchema : TableDefinition) (idM : IdMap) :
    transformForeignKeys pick rows tableSchema idM =
      transformRowsAux pick idM tableSchema.fields 0 rows := by
  have key : ∀ rows cnt acc,
      (rows.foldl
        (fun (st : Nat × List Row) row =>
          let r := transformRowFields pick idM tableSchema.fields (st.1, row)
          (r.1, st.2 ++ [r.2]))
        (cnt, acc)).2 = acc ++ transformRowsAux pick idM tableSchema.fields cnt rows := by
    intro rows
    induction rows with
    | nil => intro cnt acc; simp [transformRowsAux]
    | cons row rest ih =>
      intro cnt acc
      simp only [List.foldl_cons, transformRowsAux, ih, List.append_assoc,
        List.singleton_append]
  simpa using key rows 0 []

theorem transformRowsAux_length (pick : Nat → Nat) (idM : IdMap)
    (fields : List FieldDefinition) (cnt : Nat) (rows : List Row) :
    (transformRowsAux pick idM fields cnt rows).length = rows.length := by
  induction rows generalizing cnt with
  | nil => rfl
  | cons row rest ih => simp [transformRowsAux, ih]

theorem transformRowsAux_get (pick : Nat → Nat) (idM : IdMap)
    (fields : List FieldDefinition) (cnt : Nat) (rows : List Row) (i : Nat)
    (row : Row) (h : rows[i]? = some row) :
    ∃ c, (transformRowsAux pick idM fields cnt rows)[i]? =
      some (transformRowFields pick idM fields (c, row)).2 := by
  induction rows generalizing cnt i with
  | nil => simp at h
  | cons r rest ih =>
    cases i with
    | zero =>
      simp only [List.getElem?_cons_zero, Option.some.injEq] at h
      subst h
      exact ⟨cnt, by simp [transformRowsAux]⟩
    | succ j =>
      simp only [List.getElem?_cons_succ] at h
      simpa [transformRowsAux] using ih _ j h

theorem fkNames_split (fields L1 L2 : List FieldDefinition) (f : FieldDefinition)
    (fk : String) (hsplit : fields = L1 ++ f :: L2) (hfk : fkOf f = some fk)
    (hnod : (fkNames fields).Nodup) :
    fk ∉ fkNames L1 ∧ fk ∉ fkNames L2 := by
  subst hsplit
  have heq : fkNames (L1 ++ f :: L2) = fkNames L1 ++ fk :: fkNames L2 := by
    simp [fkNames, List.filterMap_append, List.filterMap_cons, hfk]
  rw [heq] at hnod
  rw [List.nodup_append] at hnod
  exact ⟨fun hmem => hnod.2.2 hmem (by simp), by
    have := hnod.2.1
    rw [List.nodup_cons] at this
    exact this.1⟩

theorem transformRowFields_slot (pick : Nat → Nat) (idM : IdMap)
    (fields : List FieldDefinition) (st : Nat × Row) (f : FieldDefinition)
    (fk : String) (ids : List Value)
    (hnod : (fkNames fields).Nodup) (hmem : f ∈ fields)
    (hfk : fkOf f = some fk)
    (hids : lookupA idM (relTableOf f) = some ids) (hnil : ids ≠ []) :
    ((rowGet st.2 fk = vNull ∨ rowGet st.2 fk = vUndef) →
      rowGet (transformRowFields pick idM fields st).2 fk = rowGet st.2 fk) ∧
    (rowGet st.2 fk ≠ vNull → rowGet st.2 fk ≠ vUndef →
      (rowGet st.2 fk ∈ ids → substValue idM (rowGet st.2 fk) ∈ ids) →
      rowGet (transformRowFields pick idM fields st).2 fk ∈ ids) := by
  obtain ⟨L1, L2, hsplit⟩ := List.append_of_mem hmem
  obtain ⟨hL1, hL2⟩ := fkNames_split fields L1 L2 f fk hsplit hfk hnod
  have hdec : transformRowFields pick idM fields st =
      transformRowFields pick idM L2
        (processField pick idM (transformRowFields pick idM L1 st) f) := by
    rw [hsplit]
    simp [transformRowFields, List.foldl_append]
  have hslot1 : rowGet (transformRowFields pick idM L1 st).2 fk = rowGet st.2 fk :=
    transformRowFields_frame pick idM L1 st fk hL1
  constructor
  · intro hnull
    rw [hdec, transformRowFields_frame pick idM L2 _ fk hL2,
      processField_null pick idM _ f fk hfk (by rw [hslot1]; exact hnull), hslot1]
  · intro hvn hvu hsub
    rw [hdec, transformRowFields_frame pick idM L2 _ fk hL2]
    exact processField_mem pick idM _ f fk ids hfk hids hnil
      (by rw [hslot1]; exact hvn) (by rw [hslot1]; exact hvu)
      (by rw [hslot1]; exact hsub)

/-! ## Claim C10 (frame property of the resolver) -/

/-- C10: `transformForeignKeys` returns as many rows as it was given, and
for every field name that is not the `foreignKeyField` of some relation of
the table definition, each output row maps that name to exactly the value
the corresponding input row maps it to.  (In this pure embedding the input
list itself is of course unchanged; the source's `{...row}` spread copy is
what makes the same true of the JS original.) -/
theorem spec_c10 (pick : Nat → Nat) (rows : List Row)
    (tableSchema : TableDefinition) (idM : IdMap) (name : String)
    (h : name ∉ fkNames tableSchema.fields) :
    (transformForeignKeys pick rows tableSchema idM).length = rows.length ∧
    ∀ i : Nat,
      ((transformForeignKeys pick rows tableSchema idM)[i]?).map (fun r => rowGet r name) =
        (rows[i]?).map (fun r => rowGet r name) := by
  rw [transformForeignKeys_eq_aux]
  refine ⟨transformRowsAux_length pick idM tableSchema.fields 0 rows, ?_⟩
  intro i
  rcases hi : rows[i]? with _ | row
  · have hlen : rows.length ≤ i := by
      by_contra hlt
      push_neg at hlt
      rw [List.getElem?_eq_getElem hlt] at hi
      cases hi
    rw [List.getElem?_eq_none (by rw [transformRowsAux_length]; exact hlen)]
  · obtain ⟨c, hc⟩ := transformRowsAux_get pick idM tableSchema.fields 0 rows i row hi
    rw [hc]
    simp [transformRowFields_frame pick idM tableSchema.fields (c, row) name h]

/-- C10 witness: a concrete call in which the non-FK field `note` passes
through unchanged. -/
theorem spec_c10_witness :
    (transformForeignKeys (fun _ => 0) [[("note", vStr "x"), ("userId", vNum 5)]]
        postTable [("User", idsUser)]).length = 1 ∧
    ∀ i : Nat,
      ((transformForeignKeys (fun _ => 0) [[("note", vStr "x"), ("userId", vNum 5)]]
          postTable [("User", idsUser)])[i]?).map (fun r => rowGet r "note") =
        ([[("note", vStr "x"), ("userId", vNum 5)]] : List Row)[i]?.map
          (fun r => rowGet r "note") :=
  spec_c10 (fun _ => 0) [[("note", vStr "x"), ("userId", vNum 5)]] postTable
    [("User", idsUser)] "note" (by decide)

/-! ## Claim C5 (resolved foreign keys stay inside the candidate pool) -/

/-- C5 counterexample: the membership guarantee fails as universally
stated.  With `idMappings = {User: ["{{Team_1}}"], Team: [99]}` and input
row `{userId: "{{Team_1}}"}` on a field relating to `User`, the placeholder
is substituted to `99` from the `Team` pool, but the membership re-check
compares the *stale* pre-substitution value (which is in the `User` pool)
and therefore does not correct the field: the output value `99` is not a
member of the non-empty `idMappings.User`. -/
theorem spec_c5_counterexample :
    lookupA idMapTrick "User" = some [vStr phTeam1] ∧
    ([vStr phTeam1] : List Value) ≠ [] ∧
    (transformForeignKeys (fun _ => 0) [[("userId", vStr phTeam1)]] postTable
        idMapTrick).map (fun r => rowGet r "userId") = [vNum 99] ∧
    vNum 99 ∉ ([vStr phTeam1] : List Value) := by
  refine ⟨rfl, by decide, ?_, by decide⟩
  rfl

/-- C5 corrected: for any call with duplicate-free declared FK column
names, any row index and any relation field whose related table has a
non-empty id pool: a `null`/`undefined` FK value passes through unchanged,
and otherwise the output value lies in the pool — *provided* the input
value is not a pool member that placeholder-substitution rewrites out of
the pool (the stale-value re-check makes that one case, exhibited by the
counterexample, escape the guarantee). -/
theorem spec_c5 (pick : Nat → Nat) (rows : List Row)
    (tableSchema : TableDefinition) (idM : IdMap) (i : Nat) (row : Row)
    (f : FieldDefinition) (fk : String) (ids : List Value)
    (hnod : (fkNames tableSchema.fields).Nodup)
    (hrow : rows[i]? = some row)
    (hmem : f ∈ tableSchema.fields) (hfk : fkOf f = some fk)
    (hids : lookupA idM (relTableOf f) = some ids) (hnil : ids ≠ []) :
    ∃ out, (transformForeignKeys pick rows tableSchema idM)[i]? = some out ∧
      ((rowGet row fk = vNull ∨ rowGet row fk = vUndef) →
        rowGet out fk = rowGet row fk) ∧
      (rowGet row fk ≠ vNull → rowGet row fk ≠ vUndef →
        (rowGet row fk ∈ ids → substValue idM (rowGet row fk) ∈ ids) →
        rowGet out fk ∈ ids) := by
  rw [transformForeignKeys_eq_aux]
  obtain ⟨c, hc⟩ := transformRowsAux_get pick idM tableSchema.fields 0 rows i row hrow
  refine ⟨_, hc, ?_⟩
  exact transformRowFields_slot pick idM tableSchema.fields (c, row) f fk ids
    hnod hmem hfk hids hnil

/-- C5 witness: the spec's fallback example — `userId = 999` with pool
`[10,20,30]` resolves to a member of the pool. -/
theorem spec_c5_witness :
    ∃ out, (transformForeignKeys (fun _ => 2) [[("userId", vNum 999)]] postTable
        [("User", idsUser)])[0]? = some out ∧ rowGet out "userId" ∈ idsUser := by
  obtain ⟨out, h1, _, h3⟩ :=
    spec_c5 (fun _ => 2) [[("userId", vNum 999)]] postTable [("User", idsUser)]
      0 [("userId", vNum 999)] (fkField "userId" "User") "userId" idsUser
      (by decide) rfl (by decide) rfl rfl (by decide)
  exact ⟨out, h1, h3 (by decide) (by decide) (by decide)⟩

/-! ## Claim C2 (placeholder resolution example) -/

/-- C2: evaluating the embedded `transformForeignKeys` at the spec's
placeholder example.  The placeholder `"{{User_2}}"` *is* first substituted
to `20`, but the membership re-check then compares the stale placeholder
string against `idMappings.User`, misses, and overwrites the field with a
random pool member: with the draw selecting index 0 the output is `10`, and
only the draw selecting index 1 yields the spec's promised `20`.  The
output therefore depends on `Math.random` and does not equal `20` in
general. -/
theorem spec_c2 :
    (transformForeignKeys (fun _ => 0) [[("userId", vStr phUser2)]] postTable
        [("User", idsUser)]).map (fun r => rowGet r "userId") = [vNum 10] ∧
    (transformForeignKeys (fun _ => 1) [[("userId", vStr phUser2)]] postTable
        [("User", idsUser)]).map (fun r => rowGet r "userId") = [vNum 20] ∧
    (vNum 10 : Value) ≠ vNum 20 := by
  refine ⟨rfl, rfl, by decide⟩

/-! ## Claim C6 (batch size heuristic and batch splitting) -/

theorem splitBatchesAux_zero (b : Nat) (fuel : Nat) :
    splitBatchesAux b fuel 0 = [] := by
  cases fuel <;> rfl

theorem splitBatchesAux_eq (b : Nat) (hb : 0 < b) :
    ∀ fuel r, r ≤ fuel →
      splitBatchesAux b fuel r =
        List.replicate (r / b) b ++ (if r % b = 0 then [] else [r % b]) := by
  intro fuel
  induction fuel with
  | zero =>
    intro r hr
    have : r = 0 := Nat.le_zero.mp hr
    subst this
    simp [splitBatchesAux_zero, Nat.zero_div, Nat.zero_mod]
  | succ fuel ih =>
    intro r hr
    match r with
    | 0 => simp [splitBatchesAux_zero, Nat.zero_div, Nat.zero_mod]
    | r + 1 =>
      show (min (r + 1) b) :: splitBatchesAux b fuel (r + 1 - min (r + 1) b) = _
      by_cases hge : b ≤ r + 1
      · rw [Nat.min_eq_right hge, ih (r + 1 - b) (by omega)]
        conv_rhs => rw [Nat.div_eq_sub_div hb hge, Nat.mod_eq_sub_mod hge]
        simp [List.replicate_succ]
      · have hlt : r + 1 < b := by omega
        rw [Nat.min_eq_left (by omega), Nat.sub_self, splitBatchesAux_zero,
          Nat.div_eq_of_lt hlt, Nat.mod_eq_of_lt hlt]
        simp [Nat.succ_ne_zero]

/-- C6: the complexity heuristic maps more than 15 fields to batches of 10
rows, 11–15 fields to 20, at most 10 fields to 30; the splitting loop
produces `count / batchSize` full batches followed by the remainder; and in
particular a request of 105 rows at batch size 30 yields `[30,30,30,15]`. -/
theorem spec_c6 :
    (∀ tableSchema : TableDefinition, 15 < tableSchema.fields.length →
      getOptimalBatchSize tableSchema = 10) ∧
    (∀ tableSchema : TableDefinition, 10 < tableSchema.fields.length →
      tableSchema.fields.length ≤ 15 → getOptimalBatchSize tableSchema = 20) ∧
    (∀ tableSchema : TableDefinition, tableSchema.fields.length ≤ 10 →
      getOptimalBatchSize tableSchema = 30) ∧
    (∀ count batchSize : Nat, 0 < batchSize →
      splitBatches count batchSize =
        List.replicate (count / batchSize) batchSize ++
          (if count % batchSize = 0 then [] else [count % batchSize])) ∧
    splitBatches 105 30 = [30, 30, 30, 15] := by
  refine ⟨?_, ?_, ?_, ?_, by decide⟩
  · intro t h
    simp [getOptimalBatchSize, h]
  · intro t h1 h2
    have h3 : ¬ 15 < t.fields.length := by omega
    simp [getOptimalBatchSize, h1, h3]
  · intro t h
    have h3 : ¬ 15 < t.fields.length := by omega
    have h4 : ¬ 10 < t.fields.length := by omega
    simp [getOptimalBatchSize, h3, h4]
  · intro count b hb
    exact splitBatchesAux_eq b hb (count + 1) count (by omega)

/-- C6 witness: a 16-field table gets batch size 10, an instance of the
general splitting law, plus the concrete 105/30 split. -/
theorem spec_c6_witness :
    getOptimalBatchSize wideTable = 10 ∧
    splitBatches 7 3 = List.replicate (7 / 3) 3 ++ (if 7 % 3 = 0 then [] else [7 % 3]) ∧
    splitBatches 105 30 = [30, 30, 30, 15] := by
  obtain ⟨h1, _, _, h4, h5⟩ := spec_c6
  exact ⟨h1 wideTable (by decide), h4 7 3 (by decide), h5⟩

/-! ## Claim C8 (truncated rows versus untruncated ids) -/

/-- C8: when a generation batch succeeds with more rows than requested, the
result's rows are truncated to `count` but the ids are extracted from the
*untruncated* row array; with a single declared id field defined on every
row, the result has exactly `rows.length` ids against `count` rows, so the
two lists differ in length. -/
theorem spec_c8 (tableName : String) (rows : List Row) (count : Nat)
    (tableSchema : TableDefinition) (f : FieldDefinition)
    (hid : tableSchema.fields.filter (·.isId) = [f])
    (hall : ∀ r ∈ rows, rowGet r f.name ≠ vUndef)
    (hcount : count < rows.length) :
    ∃ res, generateBatchResult tableName rows count tableSchema = some res ∧
      res.rows.length = count ∧ res.ids.length = rows.length ∧
      res.rows.length < res.ids.length := by
  have hne : rows ≠ [] := by
    intro h
    subst h
    simp at hcount
  have hemp : rows.isEmpty = false := List.isEmpty_eq_false.mpr hne
  have hids : extractIds rows tableSchema = rows.map (fun r => rowGet r f.name) := by
    simp only [extractIds, hid]
    rw [List.filter_eq_self.mpr]
    intro a ha
    obtain ⟨r, hr, hra⟩ := List.mem_map.mp ha
    simpa [← hra] using hall r hr
  have htake : (rows.take count).length = count := by
    simp [List.length_take, Nat.min_eq_left (Nat.le_of_lt hcount)]
  refine ⟨{ tableName := tableName, rows := rows.take count,
            ids := extractIds rows tableSchema }, ?_, htake, ?_, ?_⟩
  · simp [generateBatchResult, hemp]
  · rw [hids]
    simp
  · rw [hids, htake]
    simpa using hcount

/-- C8 witness: two generated rows with ids `1`,`2`, requested count 1: the
result has 1 row but 2 ids. -/
theorem spec_c8_witness :
    ∃ res, generateBatchResult "B" [[("id", vNum 1)], [("id", vNum 2)]] 1 tableB
        = some res ∧
      res.rows.length = 1 ∧ res.ids.length = 2 ∧ res.rows.length < res.ids.length := by
  have h := spec_c8 "B" [[("id", vNum 1)], [("id", vNum 2)]] 1 tableB
    { name := "id", isId := true } (by decide) (by decide) (by decide)
  simpa using h

/-! ## Claim C9 (id harvest of the conflict-tolerant insert) -/

/-- C9: for a non-empty insert whose query succeeds, ids are harvested from
the returned rows only when the first returned row has a column named
exactly `id` or ending in `_id`; the first such key is projected out of
*every* returned row, and otherwise the result's id list stays empty no
matter how many rows were inserted. -/
theorem insertBatchModel_success (tableName : String) (rows returnedRows : List Row)
    (rowCount : Nat) (hrows : rows ≠ []) :
    insertBatchModel tableName rows (DbResp.success returnedRows rowCount) =
      .ok { tableName := tableName, inserted := rowCount,
            failed := (rows.length : Int) - (rowCount : Int),
            errors :=
              if 0 < (rows.length : Int) - (rowCount : Int) then
                [toString ((rows.length : Int) - (rowCount : Int)) ++
                  " rows skipped due to conflicts (likely duplicates)"]
              else [],
            ids :=
              match returnedRows with
              | [] => []
              | r0 :: _ =>
                match (r0.map Prod.fst).find? isIdKey with
                | some idField => returnedRows.map (fun r => rowGet r idField)
                | none => [] } := by
  unfold insertBatchModel
  rw [if_neg (by simp [hrows])]

theorem spec_c9 (tableName : String) (rows returnedRows : List Row)
    (rowCount : Nat) (r0 : Row) (rest : List Row)
    (hrows : rows ≠ []) (hret : returnedRows = r0 :: rest) :
    ((∀ k ∈ r0.map Prod.fst, isIdKey k = false) →
      ∃ res, insertBatchModel tableName rows (DbResp.success returnedRows rowCount)
          = .ok res ∧ res.inserted = rowCount ∧ res.ids = []) ∧
    (∀ idField, (r0.map Prod.fst).find? isIdKey = some idField →
      ∃ res, insertBatchModel tableName rows (DbResp.success returnedRows rowCount)
          = .ok res ∧ res.inserted = rowCount ∧
        res.ids = returnedRows.map (fun r => rowGet r idField) ∧
        res.ids.length = returnedRows.length) := by
  constructor
  · intro hnone
    have hfind : (r0.map Prod.fst).find? isIdKey = none :=
      List.find?_eq_none.mpr (by intro x hx; simp [hnone x hx])
    refine ⟨_, insertBatchModel_success tableName rows returnedRows rowCount hrows,
      rfl, ?_⟩
    simp only [hret, hfind]
  · intro idField hfind
    refine ⟨_, insertBatchModel_success tableName rows returnedRows rowCount hrows,
      rfl, ?_, ?_⟩
    · simp only [hret, hfind]
    · simp only [hret, hfind]
      simp

/-- C9 witness: returned rows keyed by `user_id` are harvested (first
branch of the claim), and returned rows with no id-like column leave the
ids empty despite a positive inserted count (second branch). -/
theorem spec_c9_witness :
    (∃ res, insertBatchModel "User" [exRow]
        (DbResp.success [[("email", vStr "x")]] 1) = .ok res ∧
      res.inserted = 1 ∧ res.ids = []) ∧
    (∃ res, insertBatchModel "User" [exRow]
        (DbResp.success [[("user_id", vNum 7)], [("user_id", vNum 8)]] 2) = .ok res ∧
      res.inserted = 2 ∧
      res.ids = [[("user_id", vNum 7)], [("user_id", vNum 8)]].map
        (fun r => rowGet r "user_id") ∧
      res.ids.length = 2) := by
  constructor
  · exact (spec_c9 "User" [exRow] [[("email", vStr "x")]] 1 [("email", vStr "x")] []
      (by decide) rfl).1 (by decide)
  · have h := (spec_c9 "User" [exRow] [[("user_id", vNum 7)], [("user_id", vNum 8)]] 2
      [("user_id", vNum 7)] [[("user_id", vNum 8)]] (by decide) rfl).2 "user_id" (by decide)
    simpa using h

/-! ## Claim C3 (batch exceptions inside `insertData`) -/

theorem insertDataLoop_mono (tableName : String) (db : Nat → DbResp) :
    ∀ (batches : List (List Row)) (start : Nat) (acc : InsertResult) (e : String),
      e ∈ acc.errors → e ∈ (insertDataLoop tableName db batches start acc).errors := by
  intro batches
  induction batches with
  | nil => intro start acc e he; exact he
  | cons b rest ih =>
    intro start acc e he
    cases hm : insertBatchModel tableName b (db start) with
    | ok r =>
      simp only [insertDataLoop, hm]
      exact ih _ _ e (by simp [he])
    | error m =>
      simp only [insertDataLoop, hm]
      exact ih _ _ e (by simp [he])

theorem insertBatchModel_fail (tableName : String) (batch : List Row)
    (msg : String) (hne : batch ≠ []) :
    insertBatchModel tableName batch (DbResp.failure msg) = .error msg := by
  simp [insertBatchModel, List.isEmpty_eq_false.mpr hne]

theorem insertDataLoop_err (tableName : String) (db : Nat → DbResp) :
    ∀ (batches : List (List Row)) (start : Nat) (acc : InsertResult)
      (j : Nat) (batch : List Row) (msg : String),
      batches[j]? = some batch → batch ≠ [] → db (start + j) = DbResp.failure msg →
      ("Batch failed: " ++ msg) ∈
        (insertDataLoop tableName db batches start acc).errors := by
  intro batches
  induction batches with
  | nil =>
    intro start acc j batch msg hj
    simp at hj
  | cons b rest ih =>
    intro start acc j batch msg hj hne hdb
    cases j with
    | zero =>
      simp only [List.getElem?_cons_zero, Option.some.injEq] at hj
      subst hj
      rw [Nat.add_zero] at hdb
      have hfail : insertBatchModel tableName b (db start) = .error msg := by
        rw [hdb]
        exact insertBatchModel_fail tableName b msg hne
      simp only [insertDataLoop, hfail]
      apply insertDataLoop_mono
      simp
    | succ jj =>
      simp only [List.getElem?_cons_succ] at hj
      have hdb' : db ((start + 1) + jj) = DbResp.failure msg := by
        rw [show (start + 1) + jj = start + (jj + 1) by omega]
        exact hdb
      cases hm : insertBatchModel tableName b (db start) with
      | ok r =>
        simp only [insertDataLoop, hm]
        exact ih (start + 1) _ jj batch msg hj hne hdb'
      | error m =>
        simp only [insertDataLoop, hm]
        exact ih (start + 1) _ jj batch msg hj hne hdb'

theorem insertData_ok (tableName : String) (rows : List Row) (batchSize : Nat)
    (db : Nat → DbResp) (hrows : rows ≠ []) :
    insertData tableName rows batchSize db none none =
      { result := insertDataLoop tableName db (chunkRows rows batchSize) 0
          { tableName := tableName, inserted := 0, failed := 0,
            errors := [], ids := [] },
        committed := true, rolledBack := false, thrown := none } := by
  unfold insertData
  rw [if_neg (by simp [hrows])]

theorem insertData_commitFail (tableName : String) (rows : List Row) (batchSize : Nat)
    (db : Nat → DbResp) (m : String) (hrows : rows ≠ []) :
    insertData tableName rows batchSize db none (some m) =
      { result := insertDataLoop tableName db (chunkRows rows batchSize) 0
          { tableName := tableName, inserted := 0, failed := 0,
            errors := [], ids := [] },
        committed := false, rolledBack := true, thrown := some m } := by
  unfold insertData
  rw [if_neg (by simp [hrows])]

/-- C3 counterexample: a single batch that throws a query-level error does
*not* roll back or propagate — the loop's `catch` swallows it, records a
`Batch failed:` message plus the failed count, and the transaction still
commits. -/
theorem spec_c3_counterexample :
    (insertData "User" [exRow] 500 (fun _ => DbResp.failure "boom") none none) =
      { result := { tableName := "User", inserted := 0, failed := 1,
                    errors := ["Batch failed: boom"], ids := [] },
        committed := true, rolledBack := false, thrown := none } := by
  rfl

/-- C3 corrected: a thrown batch error is caught inside the per-batch loop
of `insertData`: the batch's rows are added to `failed`, a `Batch failed:`
message is recorded, the remaining batches still run, and the table's
transaction `COMMIT`s with no exception reaching the caller.  Only an error
thrown by `BEGIN` or `COMMIT` themselves triggers `ROLLBACK` and
propagates. -/
theorem spec_c3 (tableName : String) (rows : List Row) (batchSize : Nat)
    (db : Nat → DbResp) (i : Nat) (msg : String) (batch : List Row)
    (hrows : rows ≠ [])
    (hbatch : (chunkRows rows batchSize)[i]? = some batch) (hne : batch ≠ [])
    (hfail : db i = DbResp.failure msg) :
    (insertData tableName rows batchSize db none none).thrown = none ∧
    (insertData tableName rows batchSize db none none).committed = true ∧
    (insertData tableName rows batchSize db none none).rolledBack = false ∧
    ("Batch failed: " ++ msg) ∈
      (insertData tableName rows batchSize db none none).result.errors ∧
    ∀ m, (insertData tableName rows batchSize db none (some m)).rolledBack = true ∧
         (insertData tableName rows batchSize db none (some m)).thrown = some m := by
  rw [insertData_ok tableName rows batchSize db hrows]
  refine ⟨rfl, rfl, rfl, ?_, fun m => by rw [insertData_commitFail _ _ _ _ _ hrows]; exact ⟨rfl, rfl⟩⟩
  exact insertDataLoop_err tableName db (chunkRows rows batchSize) 0 _ i batch msg
    hbatch hne (by simpa using hfail)

/-! ## Generic association-list fold lemmas (for the topological sort) -/

theorem setA_append {α : Type} (l : List (String × α)) (k : String) (v : α)
    (h : k ∉ l.map Prod.fst) : setA l k v = l ++ [(k, v)] := by
  induction l with
  | nil => rfl
  | cons p t ih =>
    simp only [List.map_cons, List.mem_cons] at h
    push_neg at h
    rw [setA_cons, if_neg (fun hh => h.1 hh.symm), ih h.2]
    rfl

theorem lookupA_mem {α : Type} (l : List (String × α)) (k : String) (v : α)
    (h : lookupA l k = some v) : k ∈ l.map Prod.fst := by
  induction l with
  | nil => simp [lookupA] at h
  | cons p t ih =>
    rw [lookupA_cons] at h
    by_cases hp : p.1 = k
    · simp [hp]
    · rw [if_neg hp] at h
      simp [ih h]

theorem mem_lookupA {α : Type} :
    ∀ (l : List (String × α)) (p : String × α),
      (l.map Prod.fst).Nodup → p ∈ l → lookupA l p.1 = some p.2 := by
  intro l
  induction l with
  | nil => intro p _ h; simp at h
  | cons q t ih =>
    intro p hn h
    simp only [List.map_cons, List.nodup_cons] at hn
    rcases List.mem_cons.mp h with h | h
    · subst h
      rw [lookupA_cons, if_pos rfl]
    · rw [lookupA_cons, if_neg ?_]
      · exact ih p hn.2 h
      · intro hq
        exact hn.1 (hq ▸ List.mem_map_of_mem Prod.fst h)

theorem foldl_setA_fresh {α β : Type} (key : α → String) (val : α → β) :
    ∀ (l : List α) (init : List (String × β)),
      (∀ x ∈ l, key x ∉ init.map Prod.fst) → (l.map key).Nodup →
      l.foldl (fun m x => setA m (key x) (val x)) init =
        init ++ l.map (fun x => (key x, val x)) := by
  intro l
  induction l with
  | nil => intro init _ _; simp
  | cons a t ih =>
    intro init h hn
    simp only [List.map_cons, List.nodup_cons] at hn
    have hset : setA init (key a) (val a) = init ++ [(key a, val a)] :=
      setA_append _ _ _ (h a (by simp))
    simp only [List.foldl_cons, hset]
    rw [ih (init ++ [(key a, val a)]) ?_ hn.2]
    · simp
    · intro x hx
      simp only [List.map_append, List.mem_append, List.map_cons, List.map_nil,
        List.mem_singleton]
      push_neg
      refine ⟨h x (by simp [hx]), ?_⟩
      intro hkey
      exact hn.1 (hkey ▸ List.mem_map_of_mem key hx)

theorem foldl_pushIf {α γ : Type} (f : α → γ) (P : α → Prop) [DecidablePred P] :
    ∀ (l : List α) (acc : List γ),
      l.foldl (fun q x => if P x then q ++ [f x] else q) acc =
        acc ++ (l.filter (fun x => decide (P x))).map f := by
  intro l
  induction l with
  | nil => intro acc; simp
  | cons a t ih =>
    intro acc
    by_cases ha : P a
    · simp only [List.foldl_cons, if_pos ha, ih, List.filter_cons,
        decide_eq_true_eq, ha, if_pos]
      simp
    · simp only [List.foldl_cons, if_neg ha, ih, List.filter_cons,
        decide_eq_true_eq, ha, if_neg]
      simp [ha]

theorem lookupA_map_val {β γ : Type} (f : β → γ) :
    ∀ (l : List (String × β)) (k : String),
      lookupA (l.map (fun p => (p.1, f p.2))) k = (lookupA l k).map f := by
  intro l
  induction l with
  | nil => intro k; simp [lookupA]
  | cons p t ih =>
    intro k
    rw [List.map_cons, lookupA_cons, lookupA_cons]
    by_cases hp : p.1 = k
    · simp [hp]
    · simp only [hp, if_false, ih]

theorem mem_filterVal_map {β : Type} (l : List (String × β)) (P : β → Prop)
    [DecidablePred P] (hn : (l.map Prod.fst).Nodup) (k : String) :
    k ∈ (l.filter (fun p => decide (P p.2))).map Prod.fst ↔
      ∃ v, lookupA l k = some v ∧ P v := by
  constructor
  · intro h
    obtain ⟨p, hp, hpk⟩ := List.mem_map.mp h
    obtain ⟨hpl, hPp⟩ := List.mem_filter.mp hp
    refine ⟨p.2, ?_, of_decide_eq_true hPp⟩
    rw [← hpk]
    exact mem_lookupA l p hn hpl
  · rintro ⟨v, hlk, hPv⟩
    have hpair : (k, v) ∈ l := by
      clear hn
      induction l with
      | nil => simp [lookupA] at hlk
      | cons p t ih =>
        rw [lookupA_cons] at hlk
        by_cases hp : p.1 = k
        · rw [if_pos hp] at hlk
          injection hlk with hv
          subst hv
          have hpk2 : p = (k, p.2) := by rw [← hp]
          rw [← hpk2]
          exact List.mem_cons_self p t
        · rw [if_neg hp] at hlk
          exact List.mem_cons_of_mem _ (ih hlk)
    have : (k, v) ∈ l.filter (fun p => decide (P p.2)) :=
      List.mem_filter.mpr ⟨hpair, by simp [hPv]⟩
    exact List.mem_map.mpr ⟨(k, v), this, rfl⟩

theorem nodup_filterVal_map {β : Type} (l : List (String × β))
    (P : (String × β) → Bool) (hn : (l.map Prod.fst).Nodup) :
    ((l.filter P).map Prod.fst).Nodup :=
  List.Sublist.nodup (List.Sublist.map Prod.fst (List.filter_sublist l)) hn

theorem nodup_subset_length {α : Type} [DecidableEq α] (l m : List α)
    (hl : l.Nodup) (hsub : ∀ x ∈ l, x ∈ m) : l.length ≤ m.length := by
  calc l.length = l.toFinset.card := (List.toFinset_card_of_nodup hl).symm
    _ ≤ m.toFinset.card := Finset.card_le_card (fun x hx => by
        rw [List.mem_toFinset] at *
        exact hsub x hx)
    _ ≤ m.length := m.toFinset_card_le

theorem subset_of_filter_length {α : Type} [DecidableEq α] (o L : List α)
    (ho : o.Nodup)
    (h : L.length ≤ (o.filter (fun x => decide (x ∈ L))).length) : ∀ x ∈ L, x ∈ o := by
  set F := o.filter (fun x => decide (x ∈ L)) with hF
  have hFnodup : F.Nodup := List.Nodup.filter _ ho
  have hFsubL : ∀ x ∈ F, x ∈ L := by
    intro x hx
    have := (List.mem_filter.mp hx).2
    exact of_decide_eq_true this
  have hcard : L.toFinset.card ≤ F.toFinset.card := by
    have h1 : F.toFinset.card = F.length := List.toFinset_card_of_nodup hFnodup
    have h2 : L.toFinset.card ≤ L.length := L.toFinset_card_le
    omega
  have hsubF : F.toFinset ⊆ L.toFinset := by
    intro x hx
    rw [List.mem_toFinset] at *
    exact hFsubL x hx
  have heq : F.toFinset = L.toFinset :=
    Finset.eq_of_subset_of_card_le hsubF hcard
  intro x hx
  have hxF : x ∈ F.toFinset := by
    rw [heq]
    exact List.mem_toFinset.mpr hx
  rw [List.mem_toFinset] at hxF
  exact (List.mem_filter.mp hxF).1

/-! ## Representation of the in-degree map, adjacency map and queues -/

theorem degOf_setA (deg : List (String × Int)) (k : String) (v : Int) (k' : String) :
    degOf (setA deg k v) k' = if k = k' then v else degOf deg k' := by
  by_cases h : k = k'
  · subst h
    simp [degOf, lookupA_setA_self]
  · rw [if_neg h]
    simp [degOf, lookupA_setA_ne _ _ _ _ (fun hh => h hh.symm)]

theorem inDegOf_eq (g : Graph) (hn : (graphKeys g).Nodup) :
    inDegOf g = g.map (fun p => (p.1, (p.2.dependencies.length : Int))) := by
  have := foldl_setA_fresh (α := String × DependencyNode) Prod.fst
    (fun p => (p.2.dependencies.length : Int)) g [] (by simp) hn
  simpa [inDegOf] using this

theorem adjOf_eq (g : Graph) (hn : (graphKeys g).Nodup) :
    adjOf g = g.map (fun p => (p.1, p.2.dependents)) := by
  have := foldl_setA_fresh (α := String × DependencyNode) Prod.fst
    (fun p => p.2.dependents) g [] (by simp) hn
  simpa [adjOf] using this

theorem inDegOf_keys (g : Graph) (hn : (graphKeys g).Nodup) :
    (inDegOf g).map Prod.fst = graphKeys g := by
  rw [inDegOf_eq g hn]
  simp [graphKeys]

theorem degOf_inDegOf (g : Graph) (hn : (graphKeys g).Nodup) (k : String) :
    degOf (inDegOf g) k = ((depsOf g k).length : Int) := by
  have hmap : inDegOf g = g.map (fun p => (p.1, (fun n : DependencyNode =>
      (n.dependencies.length : Int)) p.2)) := inDegOf_eq g hn
  rw [degOf, hmap,
    lookupA_map_val (fun n : DependencyNode => (n.dependencies.length : Int)) g k]
  rcases hlk : lookupA g k with _ | node <;> simp [depsOf, hlk]

theorem adjOf_lookup (g : Graph) (hn : (graphKeys g).Nodup) (k : String) :
    (lookupA (adjOf g) k).getD [] = dependentsOf g k := by
  have hmap : adjOf g = g.map (fun p => (p.1, (fun n : DependencyNode =>
      n.dependents) p.2)) := adjOf_eq g hn
  rw [hmap, lookupA_map_val (fun n : DependencyNode => n.dependents) g k]
  rcases hlk : lookupA g k with _ | node <;> simp [dependentsOf, hlk]

theorem queue0Of_eq (g : Graph) :
    queue0Of g = ((inDegOf g).filter (fun p => decide (p.2 = 0))).map Prod.fst := by
  have := foldl_pushIf (α := String × Int) Prod.fst (fun p => p.2 = 0) (inDegOf g) []
  simpa [queue0Of] using this

theorem residualOf_eq (g : Graph) :
    residualOf g =
      ((kahnParts g).2.filter (fun p => decide (0 < p.2))).map Prod.fst := by
  have := foldl_pushIf (α := String × Int) Prod.fst (fun p => 0 < p.2) (kahnParts g).2 []
  simpa [residualOf] using this

theorem mem_queue0Of (g : Graph) (hn : (graphKeys g).Nodup) (k : String) :
    k ∈ queue0Of g ↔ k ∈ graphKeys g ∧ degOf (inDegOf g) k = 0 := by
  rw [queue0Of_eq g]
  rw [mem_filterVal_map (inDegOf g) (fun v => v = 0) (by rw [inDegOf_keys g hn]; exact hn)]
  constructor
  · rintro ⟨v, hv, hv0⟩
    subst hv0
    exact ⟨by rw [← inDegOf_keys g hn]; exact lookupA_mem _ _ _ hv, by simp [degOf, hv]⟩
  · rintro ⟨hk, hdeg⟩
    rw [← inDegOf_keys g hn] at hk
    obtain ⟨v, hv⟩ := lookupA_isSome _ _ hk
    refine ⟨v, hv, ?_⟩
    simpa [degOf, hv] using hdeg

theorem countDecr_nil (g : Graph) (k : String) : countDecr g [] k = 0 := rfl

theorem countDecr_append (g : Graph) (order : List String) (c k : String) :
    countDecr g (order ++ [c]) k =
      countDecr g order k + (if k ∈ dependentsOf g c then 1 else 0) := by
  unfold countDecr
  rw [List.filter_append]
  by_cases h : k ∈ dependentsOf g c <;> simp [h]

theorem countDecr_mirror (g : Graph) (wf : GraphWF g) (order : List String)
    (k : String) (_hk : k ∈ graphKeys g) (horder : ∀ c ∈ order, c ∈ graphKeys g) :
    countDecr g order k =
      ((order.filter (fun c => decide (c ∈ depsOf g k))).length : Int) := by
  unfold countDecr
  congr 2
  apply List.filter_congr
  intro c hc
  have := wf.mirror c (horder c hc) k
  by_cases hmem : k ∈ dependentsOf g c
  · simp [hmem, this.mp hmem]
  · have : c ∉ depsOf g k := fun hh => hmem (((wf.mirror c (horder c hc) k)).mpr hh)
    simp [hmem, this]

/-! ## Stable sort by key: permutation and sortedness -/

theorem insertByKey_perm (key : String → Nat) (x : String) (l : List String) :
    List.Perm (insertByKey key x l) (x :: l) := by
  induction l with
  | nil => exact List.Perm.refl _
  | cons y ys ih =>
    by_cases h : key y ≤ key x
    · simp only [insertByKey, if_pos h]
      exact (List.Perm.cons y ih).trans (List.Perm.swap x y ys)
    · simp only [insertByKey, if_neg h]
      exact List.Perm.refl _

theorem insertByKey_sorted (key : String → Nat) (x : String) (l : List String)
    (h : List.Pairwise (fun a b => key a ≤ key b) l) :
    List.Pairwise (fun a b => key a ≤ key b) (insertByKey key x l) := by
  induction l with
  | nil => simp [insertByKey]
  | cons y ys ih =>
    rcases List.pairwise_cons.mp h with ⟨hy, hys⟩
    by_cases hxy : key y ≤ key x
    · simp only [insertByKey, if_pos hxy]
      rw [List.pairwise_cons]
      refine ⟨?_, ih hys⟩
      intro z hz
      have hz' := (insertByKey_perm key x ys).mem_iff.mp hz
      rcases List.mem_cons.mp hz' with hz' | hz'
      · subst hz'
        exact hxy
      · exact hy z hz'
    · simp only [insertByKey, if_neg hxy]
      rw [List.pairwise_cons]
      refine ⟨?_, h⟩
      intro z hz
      rcases List.mem_cons.mp hz with hz | hz
      · subst hz
        omega
      · have := hy z hz
        omega

theorem sortByKey_foldl_perm (key : String → Nat) :
    ∀ (l acc : List String),
      List.Perm (l.foldl (fun a x => insertByKey key x a) acc) (acc ++ l) := by
  intro l
  induction l with
  | nil => intro acc; simp
  | cons x xs ih =>
    intro acc
    have h1 : List.Perm (xs.foldl (fun a y => insertByKey key y a) (insertByKey key x acc))
        (insertByKey key x acc ++ xs) := ih _
    have h2 : List.Perm (insertByKey key x acc ++ xs) ((x :: acc) ++ xs) :=
      (insertByKey_perm key x acc).append_right xs
    have h3 : List.Perm (x :: (acc ++ xs)) (acc ++ x :: xs) := List.perm_middle.symm
    exact (h1.trans h2).trans h3

theorem sortByKey_perm (key : String → Nat) (l : List String) :
    List.Perm (sortByKey key l) l := by
  simpa [sortByKey] using sortByKey_foldl_perm key l []

theorem sortByKey_foldl_sorted (key : String → Nat) :
    ∀ (l acc : List String), List.Pairwise (fun a b => key a ≤ key b) acc →
      List.Pairwise (fun a b => key a ≤ key b)
        (l.foldl (fun a x => insertByKey key x a) acc) := by
  intro l
  induction l with
  | nil => intro acc h; exact h
  | cons x xs ih =>
    intro acc h
    exact ih _ (insertByKey_sorted key x acc h)

theorem sortByKey_sorted (key : String → Nat) (l : List String) :
    List.Pairwise (fun a b => key a ≤ key b) (sortByKey key l) :=
  sortByKey_foldl_sorted key l [] (by simp)

/-! ## The Kahn loop invariant -/

theorem decrementFold :
    ∀ (ds : List String) (deg : List (String × Int)) (rest : List String),
      ds.Nodup → (∀ d ∈ ds, d ∈ deg.map Prod.fst) →
      (∀ k, degOf (ds.foldl decrementStep (deg, rest)).1 k =
          degOf deg k - (if k ∈ ds then 1 else 0)) ∧
      ((ds.foldl decrementStep (deg, rest)).2 =
        rest ++ ds.filter (fun d => decide (degOf deg d = 1))) ∧
      (((ds.foldl decrementStep (deg, rest)).1).map Prod.fst = deg.map Prod.fst) := by
  intro ds
  induction ds with
  | nil =>
    intro deg rest _ _
    refine ⟨fun k => by simp, by simp, rfl⟩
  | cons d t ih =>
    intro deg rest hnodup hsub
    rw [List.nodup_cons] at hnodup
    have hdK : d ∈ deg.map Prod.fst := hsub d (by simp)
    have hfold : (d :: t).foldl decrementStep (deg, rest) =
        t.foldl decrementStep (decrementStep (deg, rest) d) := rfl
    set deg2 := setA deg d (degOf deg d - 1) with hdeg2
    set rest2 := if degOf deg d - 1 = 0 then rest ++ [d] else rest with hrest2
    have hstep : decrementStep (deg, rest) d = (deg2, rest2) := rfl
    have hkeys2 : deg2.map Prod.fst = deg.map Prod.fst := by
      rw [hdeg2, keys_setA, if_pos hdK]
    have hdeg2of : ∀ k, degOf deg2 k = if d = k then degOf deg d - 1 else degOf deg k :=
      fun k => degOf_setA deg d _ k
    obtain ⟨ja, jb, jc⟩ := ih deg2 rest2 hnodup.2 (fun x hx => by
      rw [hkeys2]; exact hsub x (by simp [hx]))
    rw [hfold, hstep]
    refine ⟨?_, ?_, ?_⟩
    · intro k
      rw [ja k, hdeg2of k]
      by_cases hk : d = k
      · subst hk
        have : d ∉ t := hnodup.1
        simp [this]
      · have hkd : ¬ k = d := fun hh => hk hh.symm
        by_cases hkt : k ∈ t <;> simp [hk, hkd, hkt, List.mem_cons]
    · rw [jb]
      have hfilt : t.filter (fun x => decide (degOf deg2 x = 1)) =
          t.filter (fun x => decide (degOf deg x = 1)) := by
        apply List.filter_congr
        intro x hx
        have hxd : ¬ d = x := fun hh => hnodup.1 (hh ▸ hx)
        rw [hdeg2of x, if_neg hxd]
      rw [hfilt, hrest2]
      have hcond : (degOf deg d - 1 = 0) ↔ (degOf deg d = 1) := by omega
      by_cases hd1 : degOf deg d = 1
      · rw [if_pos (hcond.mpr hd1), List.filter_cons, if_pos (by simp [hd1])]
        simp
      · rw [if_neg (fun hh => hd1 (hcond.mp hh)), List.filter_cons,
          if_neg (by simp [hd1])]
    · rw [jc, hkeys2]

theorem kahnLoop_spec (g : Graph) (wf : GraphWF g) :
    ∀ (fuel : Nat) (queue order : List String) (deg : List (String × Int)),
      KahnInv g order queue deg →
      (graphKeys g).length + 1 ≤ fuel + order.length →
      KahnInv g (kahnLoop (adjOf g) fuel queue order deg).1 []
        (kahnLoop (adjOf g) fuel queue order deg).2 := by
  intro fuel
  induction fuel with
  | zero =>
    intro queue order deg hinv harith
    cases queue with
    | nil => exact hinv
    | cons c rest =>
      exfalso
      obtain ⟨i1, i2, _, _, _, _, _, _⟩ := hinv
      have hlen : (order ++ c :: rest).length ≤ (graphKeys g).length :=
        nodup_subset_length _ _ i1 i2
      simp only [List.length_append, List.length_cons] at hlen
      omega
  | succ fuel ih =>
    intro queue order deg hinv harith
    cases queue with
    | nil => exact hinv
    | cons c rest =>
      obtain ⟨i1, i2, i3, i4, i5, i6, i7, i8⟩ := hinv
      have hds : (lookupA (adjOf g) c).getD [] = dependentsOf g c :=
        adjOf_lookup g wf.keysNodup c
      have hcK : c ∈ graphKeys g := i2 c (by simp)
      have hdsNodup := wf.dependentsNodup c
      have hdsSub : ∀ d ∈ dependentsOf g c, d ∈ deg.map Prod.fst := by
        intro d hd
        rw [i6]
        exact wf.dependentsSub c d hd
      obtain ⟨hdeg', hq', hkeys'⟩ :=
        decrementFold (dependentsOf g c) deg rest hdsNodup hdsSub
      set dq := (dependentsOf g c).foldl decrementStep (deg, rest) with hdq
      have hstep : kahnLoop (adjOf g) (fuel + 1) (c :: rest) order deg =
          kahnLoop (adjOf g) fuel dq.2 (order ++ [c]) dq.1 := by
        show kahnLoop (adjOf g) (fuel + 1) (c :: rest) order deg = _
        rw [kahnLoop, hds]
      rw [hstep]
      set new := (dependentsOf g c).filter (fun d => decide (degOf deg d = 1)) with hnewdef
      have hF3 : ∀ x ∈ new, degOf deg x = 1 ∧ x ∈ dependentsOf g c := by
        intro x hx
        obtain ⟨hxd, hx1⟩ := List.mem_filter.mp hx
        exact ⟨of_decide_eq_true hx1, hxd⟩
      have hF4 : ∀ x ∈ new, x ∉ order ++ c :: rest := by
        intro x hx hmem
        have h1 := i3 x hmem
        have h2 := (hF3 x hx).1
        omega
      have hnewNodup : new.Nodup := List.Nodup.filter _ hdsNodup
      have hnewK : ∀ x ∈ new, x ∈ graphKeys g := by
        intro x hx
        exact wf.dependentsSub c x (hF3 x hx).2
      have hshape : (order ++ [c]) ++ (rest ++ new) = (order ++ c :: rest) ++ new := by
        simp
      have hmemsplit : ∀ k, k ∈ (order ++ [c]) ++ (rest ++ new) ↔
          (k ∈ order ++ c :: rest ∨ k ∈ new) := by
        intro k
        rw [hshape]
        simp only [List.mem_append, List.mem_cons]
      have horder'nodup : (order ++ [c]).Nodup := by
        refine List.Sublist.nodup ?_ i1
        refine List.Sublist.append_left ?_ order
        exact (List.nil_sublist rest).cons₂ c
      rw [hq']
      apply ih (rest ++ new) (order ++ [c]) dq.1 ?_ ?_
      · -- re-established invariant
        refine ⟨?_, ?_, ?_, ?_, ?_, ?_, ?_, ?_⟩
        · rw [hshape]
          rw [List.nodup_append]
          exact ⟨i1, hnewNodup, fun a ha hb => hF4 a hb ha⟩
        · intro k hk
          rcases (hmemsplit k).mp hk with hk | hk
          · exact i2 k hk
          · exact hnewK k hk
        · intro k hk
          rcases (hmemsplit k).mp hk with hk | hk
          · have h1 := i3 k hk
            rw [hdeg' k]
            by_cases hc : k ∈ dependentsOf g c <;> simp [hc] <;> omega
          · obtain ⟨h1, h2⟩ := hF3 k hk
            rw [hdeg' k, if_pos h2, h1]
            omega
        · intro k hkK hk0
          rw [hdeg' k] at hk0
          by_cases hdk : degOf deg k ≤ 0
          · exact (hmemsplit k).mpr (Or.inl (i4 k hkK hdk))
          · refine (hmemsplit k).mpr (Or.inr ?_)
            push_neg at hdk
            have hc : k ∈ dependentsOf g c := by
              by_contra hc
              rw [if_neg hc] at hk0
              omega
            rw [if_pos hc] at hk0
            have : degOf deg k = 1 := by omega
            exact List.mem_filter.mpr ⟨hc, by simp [this]⟩
        · intro k hkK
          rw [hdeg' k, i5 k hkK, countDecr_append]
          by_cases hc : k ∈ dependentsOf g c <;> simp [hc] <;> omega
        · rw [hkeys', i6]
        · intro k hk
          rcases List.mem_append.mp hk with hk | hk
          · intro x hx
            exact List.mem_append_left _ (i7 k (by simp [hk]) hx)
          · obtain ⟨h1, h2⟩ := hF3 k hk
            have hkK : k ∈ graphKeys g := hnewK k hk
            have hcount : countDecr g (order ++ [c]) k = ((depsOf g k).length : Int) := by
              rw [countDecr_append, if_pos h2]
              have := i5 k hkK
              omega
            have hsubK : ∀ x ∈ order ++ [c], x ∈ graphKeys g := by
              intro x hx
              rcases List.mem_append.mp hx with hx | hx
              · exact i2 x (by simp [hx])
              · simp only [List.mem_singleton] at hx
                subst hx
                exact hcK
            rw [countDecr_mirror g wf _ k hkK hsubK] at hcount
            have hlen : (depsOf g k).length ≤
                ((order ++ [c]).filter (fun x => decide (x ∈ depsOf g k))).length := by
              omega
            exact fun x hx => subset_of_filter_length _ _ horder'nodup hlen x hx
        · intro n k hget
          rw [List.getElem?_append] at hget
          by_cases hn : n < order.length
          · rw [if_pos hn] at hget
            have := i8 n k hget
            rw [List.take_append_of_le_length (Nat.le_of_lt hn)]
            exact this
          · rw [if_neg hn] at hget
            push_neg at hn
            rcases Nat.lt_or_ge (n - order.length) 1 with hlt | hge
            · have hzero : n - order.length = 0 := by omega
              rw [hzero] at hget
              simp only [List.getElem?_cons_zero, Option.some.injEq] at hget
              subst hget
              have hneq : n = order.length := by omega
              rw [hneq, List.take_left]
              exact i7 c (by simp)
            · exfalso
              rw [List.getElem?_eq_none (by simpa using hge)] at hget
              cases hget
      · simp only [List.length_append, List.length_cons, List.length_singleton] at *
        omega

theorem kahn_init (g : Graph) (wf : GraphWF g) :
    KahnInv g [] (queue0Of g) (inDegOf g) := by
  have hq0 : ∀ k, k ∈ queue0Of g ↔ k ∈ graphKeys g ∧ degOf (inDegOf g) k = 0 :=
    mem_queue0Of g wf.keysNodup
  refine ⟨?_, ?_, ?_, ?_, ?_, ?_, ?_, ?_⟩
  · rw [List.nil_append, queue0Of_eq]
    exact nodup_filterVal_map _ _ (by rw [inDegOf_keys g wf.keysNodup]; exact wf.keysNodup)
  · intro k hk
    exact ((hq0 k).mp (by simpa using hk)).1
  · intro k hk
    rw [((hq0 k).mp (by simpa using hk)).2]
  · intro k hkK hdeg
    have h0 : degOf (inDegOf g) k = 0 := by
      have := degOf_inDegOf g wf.keysNodup k
      omega
    simpa using (hq0 k).mpr ⟨hkK, h0⟩
  · intro k _
    rw [degOf_inDegOf g wf.keysNodup k, countDecr_nil]
    omega
  · exact inDegOf_keys g wf.keysNodup
  · intro k hk
    have h0 := ((hq0 k).mp hk).2
    rw [degOf_inDegOf g wf.keysNodup k] at h0
    have : (depsOf g k).length = 0 := by omega
    rw [List.length_eq_zero.mp this]
    exact List.nil_subset _
  · intro n k hget
    simp at hget

theorem kahn_final (g : Graph) (wf : GraphWF g) :
    KahnInv g (kahnOrder g) [] (kahnParts g).2 := by
  have harith : (graphKeys g).length + 1 ≤ (g.length + 1) + ([] : List String).length := by
    simp [graphKeys]
  exact kahnLoop_spec g wf (g.length + 1) (queue0Of g) [] (inDegOf g)
    (kahn_init g wf) harith

theorem kahnParts_keys (g : Graph) (wf : GraphWF g) :
    ((kahnParts g).2).map Prod.fst = graphKeys g :=
  (kahn_final g wf).2.2.2.2.2.1

theorem mem_residualOf (g : Graph) (wf : GraphWF g) (k : String) :
    k ∈ residualOf g ↔ k ∈ graphKeys g ∧ 0 < degOf (kahnParts g).2 k := by
  have hkeys : ((kahnParts g).2).map Prod.fst = graphKeys g := kahnParts_keys g wf
  rw [residualOf_eq]
  rw [mem_filterVal_map (kahnParts g).2 (fun v => 0 < v) (by rw [hkeys]; exact wf.keysNodup)]
  constructor
  · rintro ⟨v, hv, hv0⟩
    refine ⟨by rw [← hkeys]; exact lookupA_mem _ _ _ hv, ?_⟩
    simpa [degOf, hv] using hv0
  · rintro ⟨hk, hdeg⟩
    rw [← hkeys] at hk
    obtain ⟨v, hv⟩ := lookupA_isSome _ _ hk
    refine ⟨v, hv, ?_⟩
    simpa [degOf, hv] using hdeg

theorem residualOf_nodup (g : Graph) (wf : GraphWF g) : (residualOf g).Nodup := by
  rw [residualOf_eq]
  exact nodup_filterVal_map _ _ (by rw [kahnParts_keys g wf]; exact wf.keysNodup)

theorem kahnOrder_nodup (g : Graph) (wf : GraphWF g) : (kahnOrder g).Nodup := by
  have := (kahn_final g wf).1
  simpa using this

theorem topo_order_perm (g : Graph) (wf : GraphWF g) :
    List.Perm (topologicalSort g).order (graphKeys g) ∧
    (topologicalSort g).order.Nodup := by
  obtain ⟨i1, i2, i3, i4, _, _, _, _⟩ := kahn_final g wf
  have hO : (kahnOrder g).Nodup := by simpa using i1
  have hOK : ∀ k ∈ kahnOrder g, k ∈ graphKeys g := by
    intro k hk
    exact i2 k (by simpa using hk)
  have hOdeg : ∀ k ∈ kahnOrder g, degOf (kahnParts g).2 k ≤ 0 := by
    intro k hk
    exact i3 k (by simpa using hk)
  have hcover : ∀ k ∈ graphKeys g, degOf (kahnParts g).2 k ≤ 0 → k ∈ kahnOrder g := by
    intro k hkK hdeg
    simpa using i4 k hkK hdeg
  have hRnodup := residualOf_nodup g wf
  have hdisj : ∀ a ∈ kahnOrder g, a ∉ residualOf g := by
    intro a ha hmem
    have h1 := hOdeg a ha
    have h2 := ((mem_residualOf g wf a).mp hmem).2
    omega
  have hcomb : (kahnOrder g ++ residualOf g).Nodup :=
    List.nodup_append.mpr ⟨hO, hRnodup, hdisj⟩
  have hperm0 : List.Perm (kahnOrder g ++ residualOf g) (graphKeys g) := by
    rw [List.perm_ext_iff_of_nodup hcomb wf.keysNodup]
    intro k
    constructor
    · intro hk
      rcases List.mem_append.mp hk with hk | hk
      · exact hOK k hk
      · exact ((mem_residualOf g wf k).mp hk).1
    · intro hkK
      by_cases hdeg : degOf (kahnParts g).2 k ≤ 0
      · exact List.mem_append_left _ (hcover k hkK hdeg)
      · exact List.mem_append_right _ ((mem_residualOf g wf k).mpr ⟨hkK, by omega⟩)
  have hsort : List.Perm (topologicalSort g).order (kahnOrder g ++ residualOf g) := by
    show List.Perm (kahnOrder g ++ sortByKey (staticDepCount g) (residualOf g)) _
    exact List.Perm.append_left _ (sortByKey_perm _ _)
  refine ⟨hsort.trans hperm0, ?_⟩
  exact (hsort.trans hperm0).nodup_iff.mpr wf.keysNodup

/-! ## Claim C7 (residual ordering) -/

/-- C7 corrected: the residual nodes are appended to the end of the Kahn
order as one block, a permutation of the residual node set, sorted
ascending by their *original* total dependency count
(`graph.get(a)?.dependencies.length || 0`) — not by the remaining
(still-unresolved) count, which the counterexample shows can decrease
inside the appended block. -/
theorem spec_c7 (g : Graph) :
    (topologicalSort g).order =
      kahnOrder g ++ sortByKey (staticDepCount g) (residualOf g) ∧
    List.Perm ((topologicalSort g).order.drop (kahnOrder g).length)
      (residualOf g) ∧
    List.Pairwise (fun a b => staticDepCount g a ≤ staticDepCount g b)
      ((topologicalSort g).order.drop (kahnOrder g).length) := by
  refine ⟨rfl, ?_, ?_⟩
  · show List.Perm ((kahnOrder g ++ sortByKey (staticDepCount g)
      (residualOf g)).drop (kahnOrder g).length) _
    rw [List.drop_left]
    exact sortByKey_perm _ _
  · show List.Pairwise _ ((kahnOrder g ++ sortByKey (staticDepCount g)
      (residualOf g)).drop (kahnOrder g).length)
    rw [List.drop_left]
    exact sortByKey_sorted _ _

/-- C7 counterexample: in the residual block of the `cycTables` graph, the
*remaining* in-degree sequence is `[1, 1, 2, 1]` (node `Y` with remaining
count 2 precedes node `X` with remaining count 1), so the block is not
sorted ascending by remaining dependency count, as the claim states; it is
sorted by the original dependency counts `[1, 1, 2, 3]`. -/
theorem spec_c7_counterexample :
    (topologicalSort (buildDependencyGraph cycTables)).order
        = ["P1", "P2", "C1", "C2", "Y", "X"] ∧
    kahnOrder (buildDependencyGraph cycTables) = ["P1", "P2"] ∧
    degOf (kahnParts (buildDependencyGraph cycTables)).2 "Y" = 2 ∧
    degOf (kahnParts (buildDependencyGraph cycTables)).2 "X" = 1 ∧
    ¬ List.Pairwise
        (fun a b => degOf (kahnParts (buildDependencyGraph cycTables)).2 a ≤
          degOf (kahnParts (buildDependencyGraph cycTables)).2 b)
        ((topologicalSort (buildDependencyGraph cycTables)).order.drop
          (kahnOrder (buildDependencyGraph cycTables)).length) := by
  refine ⟨by decide, by decide, by decide, by decide, by decide⟩

/-! ## Well-formedness of graphs built by `buildDependencyGraph` -/

theorem lookupA_mem_pair {α : Type} :
    ∀ (l : List (String × α)) (k : String) (v : α),
      lookupA l k = some v → (k, v) ∈ l := by
  intro l
  induction l with
  | nil => intro k v h; simp [lookupA] at h
  | cons p t ih =>
    intro k v h
    rw [lookupA_cons] at h
    by_cases hp : p.1 = k
    · rw [if_pos hp] at h
      injection h with hv
      subst hv
      have : p = (k, p.2) := by rw [← hp]
      rw [← this]
      exact List.mem_cons_self p t
    · rw [if_neg hp] at h
      exact List.mem_cons_of_mem _ (ih k v h)

theorem depsOf_lookup (g : Graph) (k : String) (node : DependencyNode)
    (h : lookupA g k = some node) : depsOf g k = node.dependencies := by
  simp [depsOf, h]

theorem dependentsOf_lookup (g : Graph) (k : String) (node : DependencyNode)
    (h : lookupA g k = some node) : dependentsOf g k = node.dependents := by
  simp [dependentsOf, h]

theorem depsOf_setA (g : Graph) (k : String) (node : DependencyNode) (k' : String) :
    depsOf (setA g k node) k' = if k = k' then node.dependencies else depsOf g k' := by
  by_cases h : k = k'
  · subst h
    simp [depsOf, lookupA_setA_self]
  · rw [if_neg h]
    simp [depsOf, lookupA_setA_ne _ _ _ _ (fun hh => h hh.symm)]

theorem dependentsOf_setA (g : Graph) (k : String) (node : DependencyNode) (k' : String) :
    dependentsOf (setA g k node) k' =
      if k = k' then node.dependents else dependentsOf g k' := by
  by_cases h : k = k'
  · subst h
    simp [dependentsOf, lookupA_setA_self]
  · rw [if_neg h]
    simp [dependentsOf, lookupA_setA_ne _ _ _ _ (fun hh => h hh.symm)]

theorem graphKeys_setA_mem (g : Graph) (k : String) (v : DependencyNode)
    (h : k ∈ graphKeys g) : graphKeys (setA g k v) = graphKeys g := by
  have h2 : k ∈ g.map Prod.fst := h
  show (setA g k v).map Prod.fst = g.map Prod.fst
  rw [keys_setA, if_pos h2]

theorem addDep_keys (t r : String) (g : Graph) :
    graphKeys (addDep t r g) = graphKeys g := by
  rcases h : lookupA g t with _ | node
  · simp only [addDep, h]
  · simp only [addDep, h]
    by_cases hd : r ∈ node.dependencies
    · rw [if_pos hd]
    · rw [if_neg hd]
      exact graphKeys_setA_mem g t _ (lookupA_mem g t node h)

theorem addDep_dependents (t r : String) (g : Graph) (k : String) :
    dependentsOf (addDep t r g) k = dependentsOf g k := by
  rcases h : lookupA g t with _ | node
  · simp only [addDep, h]
  · simp only [addDep, h]
    by_cases hd : r ∈ node.dependencies
    · rw [if_pos hd]
    · rw [if_neg hd, dependentsOf_setA]
      by_cases hk : t = k
      · subst hk
        rw [if_pos rfl, dependentsOf_lookup g t node h]
      · rw [if_neg hk]

theorem addDep_deps (t r : String) (g : Graph) (ht : t ∈ graphKeys g) (k : String) :
    depsOf (addDep t r g) k =
      if t = k ∧ r ∉ depsOf g t then depsOf g t ++ [r] else depsOf g k := by
  obtain ⟨node, hnode⟩ := lookupA_isSome g t ht
  simp only [addDep, hnode]
  have hdeps : depsOf g t = node.dependencies := depsOf_lookup g t node hnode
  by_cases hd : r ∈ node.dependencies
  · rw [if_pos hd, if_neg ?_]
    rintro ⟨_, hnot⟩
    rw [hdeps] at hnot
    exact hnot hd
  · rw [if_neg hd, depsOf_setA]
    by_cases hk : t = k
    · subst hk
      rw [if_pos rfl, if_pos ⟨rfl, by rw [hdeps]; exact hd⟩, hdeps]
    · rw [if_neg hk, if_neg (fun hh => hk hh.1)]

theorem addDependent_keys (t r : String) (g : Graph) :
    graphKeys (addDependent t r g) = graphKeys g := by
  rcases h : lookupA g r with _ | node
  · simp only [addDependent, h]
  · simp only [addDependent, h]
    by_cases hd : t ∈ node.dependents
    · rw [if_pos hd]
    · rw [if_neg hd]
      exact graphKeys_setA_mem g r _ (lookupA_mem g r node h)

theorem addDependent_deps (t r : String) (g : Graph) (k : String) :
    depsOf (addDependent t r g) k = depsOf g k := by
  rcases h : lookupA g r with _ | node
  · simp only [addDependent, h]
  · simp only [addDependent, h]
    by_cases hd : t ∈ node.dependents
    · rw [if_pos hd]
    · rw [if_neg hd, depsOf_setA]
      by_cases hk : r = k
      · subst hk
        rw [if_pos rfl, depsOf_lookup g r node h]
      · rw [if_neg hk]

theorem addDependent_dependents (t r : String) (g : Graph) (k : String) :
    dependentsOf (addDependent t r g) k =
      if r = k ∧ r ∈ graphKeys g ∧ t ∉ dependentsOf g r then
        dependentsOf g r ++ [t]
      else dependentsOf g k := by
  rcases h : lookupA g r with _ | node
  · simp only [addDependent, h]
    rw [if_neg ?_]
    rintro ⟨_, hrk, _⟩
    obtain ⟨v, hv⟩ := lookupA_isSome g r hrk
    rw [h] at hv
    cases hv
  · simp only [addDependent, h]
    have hdep : dependentsOf g r = node.dependents := dependentsOf_lookup g r node h
    by_cases hd : t ∈ node.dependents
    · rw [if_pos hd, if_neg ?_]
      rintro ⟨_, _, hnot⟩
      rw [hdep] at hnot
      exact hnot hd
    · rw [if_neg hd, dependentsOf_setA]
      by_cases hk : r = k
      · subst hk
        rw [if_pos rfl,
          if_pos ⟨rfl, lookupA_mem g r node h, by rw [hdep]; exact hd⟩, hdep]
      · rw [if_neg hk, if_neg (fun hh => hk hh.1)]

theorem addEdge_wf (names : List String) (tname : String) (ht : tname ∈ names)
    (f : FieldDefinition) (g : Graph)
    (hkeys : graphKeys g = names) (wf : GraphWF g) :
    graphKeys (addEdge tname g f) = names ∧ GraphWF (addEdge tname g f) := by
  rcases hfk : fkOf f with _ | fk
  · simp only [addEdge, hfk]
    exact ⟨hkeys, wf⟩
  · simp only [addEdge, hfk]
    by_cases hself : relTableOf f = tname
    · rw [if_pos hself]
      exact ⟨hkeys, wf⟩
    · rw [if_neg hself]
      set r := relTableOf f with hr
      set g1 := addDep tname r g with hg1
      set g2 := addDependent tname r g1 with hg2
      have htK : tname ∈ graphKeys g := by rw [hkeys]; exact ht
      have hkeys1 : graphKeys g1 = graphKeys g := addDep_keys tname r g
      have hkeys2 : graphKeys g2 = graphKeys g := by
        rw [hg2, addDependent_keys, hkeys1]
      have hdeps2 : ∀ k, depsOf g2 k =
          if tname = k ∧ r ∉ depsOf g tname then depsOf g tname ++ [r]
          else depsOf g k := by
        intro k
        rw [hg2, addDependent_deps, hg1, addDep_deps tname r g htK k]
      have hdependents1 : ∀ k, dependentsOf g1 k = dependentsOf g k :=
        fun k => addDep_dependents tname r g k
      have hdependents2 : ∀ k, dependentsOf g2 k =
          if r = k ∧ r ∈ graphKeys g ∧ tname ∉ dependentsOf g r then
            dependentsOf g r ++ [tname]
          else dependentsOf g k := by
        intro k
        rw [hg2, addDependent_dependents, hkeys1, hdependents1, hdependents1]
      refine ⟨by rw [hkeys2, hkeys], ?_⟩
      refine ⟨by rw [hkeys2]; exact wf.keysNodup, ?_, ?_, ?_⟩
      · intro k
        rw [hdependents2 k]
        by_cases hc : r = k ∧ r ∈ graphKeys g ∧ tname ∉ dependentsOf g r
        · rw [if_pos hc]
          rw [List.nodup_append]
          refine ⟨wf.dependentsNodup r, List.nodup_singleton tname, ?_⟩
          intro a ha hb
          simp only [List.mem_singleton] at hb
          subst hb
          exact hc.2.2 ha
        · rw [if_neg hc]
          exact wf.dependentsNodup k
      · intro k d hd
        rw [hdependents2 k] at hd
        by_cases hc : r = k ∧ r ∈ graphKeys g ∧ tname ∉ dependentsOf g r
        · rw [if_pos hc] at hd
          rcases List.mem_append.mp hd with hd | hd
          · rw [hkeys2]
            exact wf.dependentsSub r d hd
          · simp only [List.mem_singleton] at hd
            subst hd
            rw [hkeys2]
            exact htK
        · rw [if_neg hc] at hd
          rw [hkeys2]
          exact wf.dependentsSub k d hd
      · intro c hc k
        rw [hkeys2] at hc
        rw [hdependents2 c, hdeps2 k]
        by_cases hck : r = c
        · have hrK : r ∈ graphKeys g := by rw [hck]; exact hc
          by_cases hkt : tname = k
          · -- c = r and k = tname: both sides hold
            have hL : k ∈ (if r = c ∧ r ∈ graphKeys g ∧ tname ∉ dependentsOf g r
                then dependentsOf g r ++ [tname] else dependentsOf g c) := by
              by_cases hB : tname ∉ dependentsOf g r
              · rw [if_pos ⟨hck, hrK, hB⟩, ← hkt]
                simp
              · rw [if_neg (fun hh => hB hh.2.2)]
                push_neg at hB
                rw [← hck, ← hkt]
                exact hB
            have hR : c ∈ (if tname = k ∧ r ∉ depsOf g tname
                then depsOf g tname ++ [r] else depsOf g k) := by
              by_cases hA : r ∉ depsOf g tname
              · rw [if_pos ⟨hkt, hA⟩, ← hck]
                simp
              · rw [if_neg (fun hh => hA hh.2)]
                push_neg at hA
                rw [← hck, ← hkt]
                exact hA
            exact iff_of_true hL hR
          · -- c = r, k not the updated table
            rw [if_neg (show ¬ (tname = k ∧ r ∉ depsOf g tname) from
              fun hh => hkt hh.1)]
            by_cases hB : r ∈ graphKeys g ∧ tname ∉ dependentsOf g r
            · rw [if_pos (show r = c ∧ r ∈ graphKeys g ∧ tname ∉ dependentsOf g r from
                ⟨hck, hB.1, hB.2⟩)]
              rw [List.mem_append, List.mem_singleton]
              have hkt2 : ¬ k = tname := fun hh => hkt hh.symm
              simp only [hkt2, or_false]
              rw [hck]
              exact wf.mirror c hc k
            · rw [if_neg (show ¬ (r = c ∧ r ∈ graphKeys g ∧ tname ∉ dependentsOf g r) from
                fun hh => hB ⟨hh.2.1, hh.2.2⟩)]
              exact wf.mirror c hc k
        · -- c is not the related table
          rw [if_neg (show ¬ (r = c ∧ r ∈ graphKeys g ∧ tname ∉ dependentsOf g r) from
            fun hh => hck hh.1)]
          by_cases hkt : tname = k
          · by_cases hA : r ∉ depsOf g tname
            · rw [if_pos (show tname = k ∧ r ∉ depsOf g tname from ⟨hkt, hA⟩)]
              rw [List.mem_append, List.mem_singleton]
              have hcr : ¬ c = r := fun hh => hck hh.symm
              simp only [hcr, or_false]
              rw [hkt]
              exact wf.mirror c hc k
            · rw [if_neg (show ¬ (tname = k ∧ r ∉ depsOf g tname) from
                fun hh => hA hh.2)]
              exact wf.mirror c hc k
          · rw [if_neg (show ¬ (tname = k ∧ r ∉ depsOf g tname) from
              fun hh => hkt hh.1)]
            exact wf.mirror c hc k
theorem foldl_preserve {α : Type} (P : Graph → Prop) (f : Graph → α → Graph) :
    ∀ (l : List α), (∀ g x, x ∈ l → P g → P (f g x)) →
      ∀ g, P g → P (l.foldl f g) := by
  intro l
  induction l with
  | nil => intro _ g hg; exact hg
  | cons a t ih =>
    intro h g hg
    exact ih (fun g2 x hx => h g2 x (by simp [hx])) (f g a) (h g a (by simp) hg)

theorem buildDependencyGraph_wf (tables : List TableDefinition)
    (hnod : (tables.map (fun t => t.name)).Nodup) :
    graphKeys (buildDependencyGraph tables) = tables.map (fun t => t.name) ∧
    GraphWF (buildDependencyGraph tables) := by
  set names := tables.map (fun t => t.name) with hnames
  set g0 : Graph := tables.foldl
    (fun g t => setA g t.name { table := t.name, dependencies := [], dependents := [] })
    [] with hg0
  have hg0eq : g0 = tables.map (fun t =>
      (t.name, ({ table := t.name, dependencies := [], dependents := [] } : DependencyNode))) := by
    have := foldl_setA_fresh (fun t : TableDefinition => t.name)
      (fun t : TableDefinition =>
        ({ table := t.name, dependencies := [], dependents := [] } : DependencyNode))
      tables [] (by simp) hnod
    simpa [hg0] using this
  have hg0keys : graphKeys g0 = names := by
    rw [hg0eq]
    simp [graphKeys, hnames]
  have hg0empty : ∀ k, depsOf g0 k = [] ∧ dependentsOf g0 k = [] := by
    intro k
    rcases hlk : lookupA g0 k with _ | node
    · simp [depsOf, dependentsOf, hlk]
    · have hpair := lookupA_mem_pair g0 k node hlk
      rw [hg0eq] at hpair
      obtain ⟨t, _, hteq⟩ := List.mem_map.mp hpair
      have hnode : node = { table := t.name, dependencies := [], dependents := [] } := by
        have := congrArg Prod.snd hteq
        simpa using this.symm
      simp [depsOf, dependentsOf, hlk, hnode]
  have hg0wf : GraphWF g0 := by
    refine ⟨by rw [hg0keys]; exact hnod, ?_, ?_, ?_⟩
    · intro k
      rw [(hg0empty k).2]
      exact List.nodup_nil
    · intro k d hd
      rw [(hg0empty k).2] at hd
      simp at hd
    · intro c _ k
      rw [(hg0empty c).2, (hg0empty k).1]
      simp
  have hmain : graphKeys (buildDependencyGraph tables) = names ∧
      GraphWF (buildDependencyGraph tables) := by
    show graphKeys (tables.foldl (fun g t => t.fields.foldl (addEdge t.name) g) g0) = names ∧
      GraphWF (tables.foldl (fun g t => t.fields.foldl (addEdge t.name) g) g0)
    have := foldl_preserve (fun g => graphKeys g = names ∧ GraphWF g)
      (fun g t => t.fields.foldl (addEdge t.name) g) tables ?_ g0 ⟨hg0keys, hg0wf⟩
    · exact this
    · intro g t htmem hP
      have htname : t.name ∈ names := by
        rw [hnames]
        exact List.mem_map_of_mem _ htmem
      exact foldl_preserve (fun g => graphKeys g = names ∧ GraphWF g)
        (fun g f => addEdge t.name g f) t.fields
        (fun g2 f _ hP2 => addEdge_wf names t.name htname f g2 hP2.1 hP2.2) g hP
  exact hmain

/-- C3 witness for the corrected statement, at the counterexample's
input. -/
theorem spec_c3_witness :
    (insertData "User" [exRow] 500 (fun _ => DbResp.failure "boom") none none).thrown
        = none ∧
    (insertData "User" [exRow] 500 (fun _ => DbResp.failure "boom") none none).committed
        = true ∧
    (insertData "User" [exRow] 500 (fun _ => DbResp.failure "boom") none none).rolledBack
        = false ∧
    ("Batch failed: " ++ "boom") ∈
      (insertData "User" [exRow] 500 (fun _ => DbResp.failure "boom") none none).result.errors ∧
    ∀ m, (insertData "User" [exRow] 500 (fun _ => DbResp.failure "boom") none
            (some m)).rolledBack = true ∧
         (insertData "User" [exRow] 500 (fun _ => DbResp.failure "boom") none
            (some m)).thrown = some m :=
  spec_c3 "User" [exRow] 500 (fun _ => DbResp.failure "boom") 0 "boom" [exRow]
    (by decide) rfl (by decide) rfl

/-! ## Claim C1 (dependency ordering) -/

theorem indexOf_append_left (x : String) :
    ∀ p s : List String, x ∈ p → (p ++ s).indexOf x = p.indexOf x := by
  intro p
  induction p with
  | nil => intro s h; simp at h
  | cons a t ih =>
    intro s h
    by_cases hax : a = x
    · subst hax
      simp [List.indexOf_cons_self]
    · have hxt : x ∈ t := by
        rcases List.mem_cons.mp h with h | h
        · exact absurd h.symm hax
        · exact h
      rw [List.cons_append, List.indexOf_cons_ne _ hax, List.indexOf_cons_ne _ hax,
        ih s hxt]

theorem indexOf_lt_of_mem_take (x : String) :
    ∀ (l : List String) (n : Nat), x ∈ l.take n → l.indexOf x < n := by
  intro l
  induction l with
  | nil => intro n h; simp at h
  | cons a t ih =>
    intro n h
    match n with
    | 0 => simp at h
    | m + 1 =>
      by_cases hax : a = x
      · subst hax
        simp [List.indexOf_cons_self]
      · have hxt : x ∈ t.take m := by
          rw [List.take_succ_cons] at h
          rcases List.mem_cons.mp h with h | h
          · exact absurd h.symm hax
          · exact h
        rw [List.indexOf_cons_ne _ hax]
        exact Nat.succ_lt_succ (ih m hxt)

theorem indexOf_of_getElem (x : String) :
    ∀ (l : List String) (n : Nat), l.Nodup → l[n]? = some x → l.indexOf x = n := by
  intro l
  induction l with
  | nil => intro n _ h; simp at h
  | cons a t ih =>
    intro n hnd h
    match n with
    | 0 =>
      simp at h
      subst h
      simp [List.indexOf_cons_self]
    | m + 1 =>
      have ht : t[m]? = some x := by simpa using h
      have hxt : x ∈ t := by
        obtain ⟨hm, he⟩ := List.getElem?_eq_some.mp ht
        exact he ▸ List.getElem_mem hm
      have hax : a ≠ x := fun he => (List.nodup_cons.mp hnd).1 (he ▸ hxt)
      rw [List.indexOf_cons_ne _ hax, ih m (List.nodup_cons.mp hnd).2 ht]

/-- C1 (corrected): for every duplicate-free table list and every edge
A → B of the built dependency graph (A declares a non-self foreign key to
B), if A is emitted by the Kahn phase of `topologicalSort` — which is the
case for every node when the graph is acyclic — then B is emitted too and
B's index in the returned order is strictly *less* than A's index: the
referenced table comes first, the reverse of the claimed inequality. -/
theorem spec_c1 (tables : List TableDefinition)
    (hnod : (tables.map (fun t => t.name)).Nodup)
    (A B : String)
    (hedge : B ∈ depsOf (buildDependencyGraph tables) A)
    (hA : A ∈ kahnOrder (buildDependencyGraph tables)) :
    B ∈ kahnOrder (buildDependencyGraph tables) ∧
    (topologicalSort (buildDependencyGraph tables)).order.indexOf B <
      (topologicalSort (buildDependencyGraph tables)).order.indexOf A := by
  obtain ⟨hkeys, hwf⟩ := buildDependencyGraph_wf tables hnod
  set g := buildDependencyGraph tables with hg
  have hfin := kahn_final g hwf
  have hnodO : (kahnOrder g).Nodup := kahnOrder_nodup g hwf
  have hi8 : ∀ n k, (kahnOrder g)[n]? = some k → depsOf g k ⊆ (kahnOrder g).take n :=
    hfin.2.2.2.2.2.2.2
  obtain ⟨n, hn⟩ := List.getElem?_of_mem hA
  have hBtake : B ∈ (kahnOrder g).take n := hi8 n A hn hedge
  have hBmem : B ∈ kahnOrder g := List.take_subset n _ hBtake
  have hidxB : (kahnOrder g).indexOf B < n := indexOf_lt_of_mem_take B _ n hBtake
  have hidxA : (kahnOrder g).indexOf A = n := indexOf_of_getElem A _ n hnodO hn
  refine ⟨hBmem, ?_⟩
  have horder : (topologicalSort g).order
      = kahnOrder g ++ sortByKey (staticDepCount g) (residualOf g) := rfl
  rw [horder, indexOf_append_left A _ _ hA, indexOf_append_left B _ _ hBmem, hidxA]
  exact hidxB

/-- C1 counterexample: table `A` has a foreign key to acyclic, cycle-free
table `B`, so the graph has the edge A → B and no cycle at all, yet the
returned order is `["B", "A"]`: A's index (1) is *greater* than B's
index (0), refuting the claimed direction of the inequality. -/
theorem spec_c1_counterexample :
    "B" ∈ depsOf (buildDependencyGraph [tableA, tableB]) "A" ∧
    (topologicalSort (buildDependencyGraph [tableA, tableB])).cycles = [] ∧
    (topologicalSort (buildDependencyGraph [tableA, tableB])).order = ["B", "A"] ∧
    ¬ ((topologicalSort (buildDependencyGraph [tableA, tableB])).order.indexOf "A" <
       (topologicalSort (buildDependencyGraph [tableA, tableB])).order.indexOf "B") := by
  refine ⟨by decide, by decide, by decide, by decide⟩

/-- C1 witness: the corrected theorem applied at the two-table example. -/
theorem spec_c1_witness :
    "B" ∈ kahnOrder (buildDependencyGraph [tableA, tableB]) ∧
    (topologicalSort (buildDependencyGraph [tableA, tableB])).order.indexOf "B" <
      (topologicalSort (buildDependencyGraph [tableA, tableB])).order.indexOf "A" :=
  spec_c1 [tableA, tableB] (by decide) "A" "B" (by decide) (by decide)

/-! ## Claim C4 (both phases cover every table exactly once) -/

theorem cover_of_length {α : Type} [DecidableEq α] (p n : List α)
    (hp : p.Nodup) (hsub : ∀ x ∈ p, x ∈ n) (hlen : n.length ≤ p.length) :
    ∀ x ∈ n, x ∈ p := by
  have h1 : p.toFinset ⊆ n.toFinset := fun x hx => by
    rw [List.mem_toFinset] at *
    exact hsub x hx
  have h2 : n.toFinset.card ≤ p.toFinset.card := by
    have hpc : p.toFinset.card = p.length := List.toFinset_card_of_nodup hp
    have hnc : n.toFinset.card ≤ n.length := n.toFinset_card_le
    omega
  have h3 : p.toFinset = n.toFinset := Finset.eq_of_subset_of_card_le h1 h2
  intro x hx
  rw [← List.mem_toFinset, ← h3, List.mem_toFinset] at hx
  exact hx

theorem filter_mem_of_sublist {α : Type} [DecidableEq α] :
    ∀ {s F : List α}, s.Sublist F → F.Nodup → F.filter (fun x => x ∈ s) = s := by
  intro s F hsub
  induction hsub with
  | slnil => intro _; rfl
  | cons a h ih =>
    rename_i l1 l2
    intro hnd
    obtain ⟨ha, hnd2⟩ := List.nodup_cons.mp hnd
    have ha1 : a ∉ l1 := fun hmem => ha (h.subset hmem)
    rw [List.filter_cons, if_neg (by simp [ha1])]
    exact ih hnd2
  | cons₂ a h ih =>
    rename_i l1 l2
    intro hnd
    obtain ⟨ha, hnd2⟩ := List.nodup_cons.mp hnd
    have hstep : ∀ x ∈ l2, decide (x ∈ a :: l1) = decide (x ∈ l1) := by
      intro x hx
      have hxa : x ≠ a := fun he => ha (he ▸ hx)
      simp [List.mem_cons, hxa]
    rw [List.filter_cons, if_pos (by simp), List.filter_congr hstep, ih hnd2]

theorem foldl_addSet :
    ∀ (l processed : List String), (∀ x ∈ l, x ∉ processed) → l.Nodup →
      l.foldl addSet processed = processed ++ l := by
  intro l
  induction l with
  | nil => intro processed _ _; simp
  | cons c rest ih =>
    intro processed hfresh hnd
    have hc : c ∉ processed := hfresh c (by simp)
    have hstep : addSet processed c = processed ++ [c] := by
      simp [addSet, hc]
    have hfresh2 : ∀ x ∈ rest, x ∉ processed ++ [c] := by
      intro x hx
      rw [List.mem_append]
      rintro (h1 | h1)
      · exact hfresh x (by simp [hx]) h1
      · have hxc : x = c := by simpa using h1
        exact (List.nodup_cons.mp hnd).1 (hxc ▸ hx)
    show rest.foldl addSet (addSet processed c) = processed ++ c :: rest
    rw [hstep, ih (processed ++ [c]) hfresh2 (List.nodup_cons.mp hnd).2]
    simp

theorem filter_name_map (processed : List String) :
    ∀ tables : List TableDefinition,
      (tables.filter (fun t => t.name ∉ processed)).map (fun t => t.name) =
        (tables.map (fun t => t.name)).filter (fun x => x ∉ processed) := by
  intro tables
  induction tables with
  | nil => rfl
  | cons t rest ih =>
    by_cases hp : t.name ∈ processed
    · simp [List.filter_cons, hp]
      simpa using ih
    · simp [List.filter_cons, hp]
      simpa using ih

theorem currentLevelOf_eq (g : Graph) (processed : List String) :
    ∀ tables : List TableDefinition,
      currentLevelOf g tables processed =
        (tables.map (fun t => t.name)).filter (fun x =>
          !(decide (x ∈ processed)) &&
          ((lookupA g x).elim false
            (fun node => node.dependencies.all (fun d => d ∈ processed)))) := by
  intro tables
  induction tables with
  | nil => rfl
  | cons t rest ih =>
    by_cases hp : t.name ∈ processed
    · simp [currentLevelOf, List.filterMap_cons, List.filter_cons, hp] at ih ⊢
      exact ih
    · rcases hl : lookupA g t.name with _ | node
      · simp [currentLevelOf, List.filterMap_cons, List.filter_cons, hp, hl] at ih ⊢
        exact ih
      · cases hB : node.dependencies.all (fun d => decide (d ∈ processed)) with
        | false =>
          have hPr : ¬ ∀ x ∈ node.dependencies, x ∈ processed := by
            intro hall
            have hT : node.dependencies.all (fun d => decide (d ∈ processed)) = true :=
              List.all_eq_true.mpr (fun x hx => by simpa using hall x hx)
            rw [hB] at hT
            simp at hT
          simp [currentLevelOf, List.filterMap_cons, List.filter_cons, hp, hl, hB] at ih ⊢
          rw [if_neg hPr]
          exact ih
        | true =>
          have hPr : ∀ x ∈ node.dependencies, x ∈ processed := by
            have := List.all_eq_true.mp hB
            intro x hx
            simpa using this x hx
          simp [currentLevelOf, List.filterMap_cons, List.filter_cons, hp, hl, hB] at ih ⊢
          rw [if_pos hPr]
          exact congrArg (List.cons t.name) ih

theorem levelLoop_suffix (g : Graph) (tables : List TableDefinition)
    (hnames : (tables.map (fun t => t.name)).Nodup) :
    ∀ (fuel : Nat) (processed : List String) (levels : List (List String)),
      processed.Nodup →
      (∀ x ∈ processed, x ∈ tables.map (fun t => t.name)) →
      (tables.map (fun t => t.name)).length < fuel + processed.length →
      ∃ suffix : List (List String),
        levelLoop g tables fuel processed levels = levels ++ suffix ∧
        List.Perm suffix.flatten
          ((tables.map (fun t => t.name)).filter (fun x => x ∉ processed)) := by
  intro fuel
  induction fuel with
  | zero =>
    intro processed levels hpnd hpsub harith
    have hle := nodup_subset_length processed (tables.map (fun t => t.name)) hpnd hpsub
    exact absurd harith (by omega)
  | succ fuel ih =>
    intro processed levels hpnd hpsub harith
    have hstep : levelLoop g tables (fuel + 1) processed levels =
        if processed.length < tables.length then
          if (currentLevelOf g tables processed).isEmpty then
            if ((tables.filter (fun t => t.name ∉ processed)).map (fun t => t.name)).isEmpty
            then levels
            else levels ++ [(tables.filter (fun t => t.name ∉ processed)).map (fun t => t.name)]
          else
            levelLoop g tables fuel
              ((currentLevelOf g tables processed).foldl addSet processed)
              (levels ++ [currentLevelOf g tables processed])
        else levels := rfl
    by_cases hguard : processed.length < tables.length
    · by_cases hemp : (currentLevelOf g tables processed).isEmpty
      · have hrem : (tables.filter (fun t => t.name ∉ processed)).map (fun t => t.name)
            = (tables.map (fun t => t.name)).filter (fun x => x ∉ processed) :=
          filter_name_map processed tables
        by_cases hremE :
            ((tables.filter (fun t => t.name ∉ processed)).map (fun t => t.name)).isEmpty
        · refine ⟨[], ?_, ?_⟩
          · rw [hstep, if_pos hguard, if_pos hemp, if_pos hremE]
            simp
          · have hnil : (tables.map (fun t => t.name)).filter (fun x => x ∉ processed) = [] := by
              rw [← hrem]
              exact List.isEmpty_iff.mp hremE
            rw [hnil]
            simp
        · refine ⟨[(tables.filter (fun t => t.name ∉ processed)).map (fun t => t.name)], ?_, ?_⟩
          · rw [hstep, if_pos hguard, if_pos hemp, if_neg hremE]
          · have hj : [(tables.filter (fun t => t.name ∉ processed)).map
                (fun t => t.name)].flatten
                = (tables.filter (fun t => t.name ∉ processed)).map (fun t => t.name) := by
              simp
            rw [hj, hrem]
      · set cl := currentLevelOf g tables processed with hcl
        have hcleq : cl = (tables.map (fun t => t.name)).filter (fun x =>
            !(decide (x ∈ processed)) &&
            ((lookupA g x).elim false
              (fun node => node.dependencies.all (fun d => d ∈ processed)))) :=
          currentLevelOf_eq g processed tables
        have hclsubn : ∀ x ∈ cl, x ∈ tables.map (fun t => t.name) := by
          intro x hx
          rw [hcleq] at hx
          exact List.mem_of_mem_filter hx
        have hclfresh : ∀ x ∈ cl, x ∉ processed := by
          intro x hx
          rw [hcleq] at hx
          have h2 := (List.mem_filter.mp hx).2
          simp only [Bool.and_eq_true] at h2
          simpa using h2.1
        have hclnd : cl.Nodup := by
          rw [hcleq]
          exact hnames.filter _
        have hclsl : cl.Sublist
            ((tables.map (fun t => t.name)).filter (fun x => x ∉ processed)) := by
          rw [hcleq]
          apply List.monotone_filter_right
          intro a ha
          simp only [Bool.and_eq_true] at ha
          simpa using ha.1
        have hproc : cl.foldl addSet processed = processed ++ cl :=
          foldl_addSet cl processed hclfresh hclnd
        have hpnd2 : (processed ++ cl).Nodup := by
          rw [List.nodup_append]
          exact ⟨hpnd, hclnd, fun x hx hx2 => hclfresh x hx2 hx⟩
        have hpsub2 : ∀ x ∈ processed ++ cl, x ∈ tables.map (fun t => t.name) := by
          intro x hx
          rcases List.mem_append.mp hx with h | h
          · exact hpsub x h
          · exact hclsubn x h
        have hclne : cl ≠ [] := by
          intro h0
          exact hemp (by rw [h0]; rfl)
        have harith2 : (tables.map (fun t => t.name)).length
            < fuel + (processed ++ cl).length := by
          rw [List.length_append]
          have := List.length_pos.mpr hclne
          omega
        obtain ⟨suffix, heq, hperm⟩ := ih (processed ++ cl) (levels ++ [cl]) hpnd2 hpsub2 harith2
        refine ⟨cl :: suffix, ?_, ?_⟩
        · rw [hstep, if_pos hguard, if_neg hemp, hproc, heq]
          simp
        · rw [List.flatten_cons]
          have hB : (((tables.map (fun t => t.name)).filter
                (fun x => x ∉ processed)).filter (fun x => !(decide (x ∈ cl))))
              = (tables.map (fun t => t.name)).filter (fun x => x ∉ processed ++ cl) := by
            rw [List.filter_filter]
            apply List.filter_congr
            intro x hx
            by_cases h1 : x ∈ processed <;> by_cases h2 : x ∈ cl <;>
              simp [h1, h2, List.mem_append]
          have hA : (((tables.map (fun t => t.name)).filter
                (fun x => x ∉ processed)).filter (fun x => decide (x ∈ cl))) = cl :=
            filter_mem_of_sublist hclsl (hnames.filter _)
          have hsplit := List.filter_append_perm (fun x => decide (x ∈ cl))
            ((tables.map (fun t => t.name)).filter (fun x => x ∉ processed))
          rw [hA, hB] at hsplit
          exact (List.Perm.append_left cl hperm).trans hsplit
    · refine ⟨[], ?_, ?_⟩
      · rw [hstep, if_neg hguard]
        simp
      · have hlen : (tables.map (fun t => t.name)).length ≤ processed.length := by
          rw [List.length_map]
          omega
        have hcov := cover_of_length processed (tables.map (fun t => t.name)) hpnd hpsub hlen
        have hnil : (tables.map (fun t => t.name)).filter (fun x => x ∉ processed) = [] := by
          rw [List.filter_eq_nil_iff]
          intro a ha
          simp [hcov a ha]
        rw [hnil]
        simp

/-- C4: for every table list with duplicate-free names (the schema's
table-name uniqueness invariant), both phases cover every table exactly
once, cycles included: the order returned by `topologicalSort` is a
permutation of the table names (so `order.length = tables.length`), and
the levels returned by `groupTablesByLevel` partition the table set — the
concatenation of the levels is a permutation of the table names, the level
sizes sum to `tables.length`, and no table appears in two levels. -/
theorem spec_c4 (tables : List TableDefinition)
    (hnod : (tables.map (fun t => t.name)).Nodup) :
    List.Perm (topologicalSort (buildDependencyGraph tables)).order
      (tables.map (fun t => t.name)) ∧
    (topologicalSort (buildDependencyGraph tables)).order.length = tables.length ∧
    List.Perm (groupTablesByLevel tables).flatten (tables.map (fun t => t.name)) ∧
    ((groupTablesByLevel tables).map List.length).sum = tables.length ∧
    (groupTablesByLevel tables).flatten.Nodup := by
  obtain ⟨hkeys, hwf⟩ := buildDependencyGraph_wf tables hnod
  have htopo := topo_order_perm (buildDependencyGraph tables) hwf
  have hperm1 : List.Perm (topologicalSort (buildDependencyGraph tables)).order
      (tables.map (fun t => t.name)) := by
    have h1 := htopo.1
    rw [hkeys] at h1
    exact h1
  have hlen1 : (topologicalSort (buildDependencyGraph tables)).order.length = tables.length := by
    rw [hperm1.length_eq, List.length_map]
  obtain ⟨suffix, heq, hpermJ⟩ :=
    levelLoop_suffix (buildDependencyGraph tables) tables hnod
      (tables.length + 1) [] [] List.nodup_nil (by intro x hx; simp at hx)
      (by rw [List.length_map]; omega)
  have hgroup : groupTablesByLevel tables = suffix := by
    rw [groupTablesByLevel, heq]
    simp
  have hfilter : (tables.map (fun t => t.name)).filter (fun x => x ∉ ([] : List String))
      = tables.map (fun t => t.name) := by
    apply List.filter_eq_self.mpr
    intro a _
    simp
  have hperm3 : List.Perm (groupTablesByLevel tables).flatten (tables.map (fun t => t.name)) := by
    rw [hgroup]
    rw [hfilter] at hpermJ
    exact hpermJ
  refine ⟨hperm1, hlen1, hperm3, ?_, ?_⟩
  · rw [← List.length_flatten, hperm3.length_eq, List.length_map]
  · exact hperm3.nodup_iff.mpr hnod

/-- C4 witness: the claim theorem applied at the two-table example. -/
theorem spec_c4_witness :
    List.Perm (topologicalSort (buildDependencyGraph [tableA, tableB])).order
      ([tableA, tableB].map (fun t => t.name)) ∧
    (topologicalSort (buildDependencyGraph [tableA, tableB])).order.length
      = [tableA, tableB].length ∧
    List.Perm (groupTablesByLevel [tableA, tableB]).flatten
      ([tableA, tableB].map (fun t => t.name)) ∧
    ((groupTablesByLevel [tableA, tableB]).map List.length).sum = [tableA, tableB].length ∧
    (groupTablesByLevel [tableA, tableB]).flatten.Nodup :=
  spec_c4 [tableA, tableB] (by decide)

end Snapgen
